import Mathlib

/-!
Shallow embedding of the retro-gaming-analytics core
(src/retro_gaming_analytics/src/csv_parser.py and dataframe.py).

Scalar cell values are the Python values produced by the CSV coercion
pipeline: None, int, float, str.  Python floats are modelled as rationals
(IEEE-754 rounding is not modelled; no theorem below depends on float
arithmetic).  Strings are modelled at the character-list level; Python's
`str.lower` is modelled on ASCII letters, which covers every string any
theorem below touches.
-/

inductive Value where
  | null : Value
  | int : ℤ → Value
  | float : ℚ → Value
  | text : String → Value
deriving DecidableEq, Repr

abbrev Row := List Value

/-- Error taxonomy of the core: Python ValueError / KeyError / TypeError. -/
inductive Err where
  | valueError : String → Err
  | keyError : String → Err
  | typeError : Err
deriving DecidableEq, Repr

deriving instance DecidableEq for Except

/-! ## Python string primitives -/

/-- Python whitespace for `str.strip()` (ASCII subset). -/
def isPySpace (c : Char) : Bool :=
  c = ' ' || c = '\t' || c = '\n' || c = '\r' || c = '\x0b' || c = '\x0c'

def pyStripL (l : List Char) : List Char :=
  ((l.dropWhile isPySpace).reverse.dropWhile isPySpace).reverse

def pyStripS (s : String) : String := ⟨pyStripL s.data⟩

/-- Python `str.strip(chars)` with a single strip character. -/
def pyStripCharL (ch : Char) (l : List Char) : List Char :=
  ((l.dropWhile (· = ch)).reverse.dropWhile (· = ch)).reverse

/-- ASCII `str.lower`. -/
def toLowerL (l : List Char) : List Char := l.map Char.toLower

def isPrefixL : List Char → List Char → Bool
  | [], _ => true
  | _ :: _, [] => false
  | a :: xs, b :: ys => a = b && isPrefixL xs ys

/-- Python `sub in s` substring test. -/
def containsSub (pat : List Char) : List Char → Bool
  | [] => isPrefixL pat []
  | l@(_ :: rest) => isPrefixL pat l || containsSub pat rest

theorem isPrefixL_length {pat l : List Char} (h : isPrefixL pat l = true) :
    pat.length ≤ l.length := by
  induction pat generalizing l with
  | nil => simp
  | cons a xs ih =>
    cases l with
    | nil => simp [isPrefixL] at h
    | cons b ys =>
      simp only [isPrefixL, Bool.and_eq_true] at h
      simpa [List.length_cons, Nat.succ_le_succ_iff] using ih h.2

/-- Python `str.replace(pat, repl)`: all non-overlapping occurrences, left to
right.  Fuel-recursive (fuel bounds the number of consumed characters) so the
kernel can evaluate it; `replaceSub` supplies adequate fuel. -/
def replaceSubF (pat repl : List Char) : ℕ → List Char → List Char
  | 0, l => l
  | _ + 1, [] => []
  | fuel + 1, c :: rest =>
    if pat ≠ [] ∧ isPrefixL pat (c :: rest) = true then
      repl ++ replaceSubF pat repl fuel ((c :: rest).drop pat.length)
    else
      c :: replaceSubF pat repl fuel rest

def replaceSub (pat repl l : List Char) : List Char :=
  replaceSubF pat repl l.length l

/-- Python `str.split(sep)` for a non-empty separator: splits at all
non-overlapping occurrences, left to right. -/
def splitAllSubF (sep : List Char) : ℕ → List Char → List Char → List (List Char)
  | 0, l, cur => [(cur.reverse ++ l)]
  | _ + 1, [], cur => [cur.reverse]
  | fuel + 1, c :: rest, cur =>
    if sep ≠ [] ∧ isPrefixL sep (c :: rest) = true then
      cur.reverse :: splitAllSubF sep fuel ((c :: rest).drop sep.length) []
    else
      splitAllSubF sep fuel rest (c :: cur)

def splitAllSub (sep l : List Char) : List (List Char) :=
  splitAllSubF sep l.length l []

/-- Split on a single character (used by the round-trip spec side). -/
def splitOnCharAux (d : Char) : List Char → List Char → List (List Char)
  | [], cur => [cur.reverse]
  | c :: rest, cur =>
    if c = d then cur.reverse :: splitOnCharAux d rest []
    else splitOnCharAux d rest (c :: cur)

def splitOnChar (d : Char) (l : List Char) : List (List Char) := splitOnCharAux d l []

/-- Join segments with a single-character delimiter (inverse of split). -/
def joinSegs (d : Char) : List (List Char) → List Char
  | [] => []
  | [s] => s
  | s :: rest => s ++ d :: joinSegs d rest

/-! ## Python numeric literal parsing -/

def digitsToNat (l : List Char) : ℕ :=
  l.foldl (fun n c => 10 * n + (c.toNat - '0'.toNat)) 0

/-- Python `str.isdigit` (ASCII digits; the code only meets ASCII data). -/
def isdigitL (l : List Char) : Bool := l ≠ [] && l.all Char.isDigit

def isdigitS (s : String) : Bool := isdigitL s.data

/-- Digit run with single underscores between digits, after the first digit
(Python int literal tail). -/
def intTailOK : List Char → Bool
  | [] => true
  | c :: rest =>
    if c = '_' then
      match rest with
      | c2 :: rest2 => c2.isDigit && intTailOK rest2
      | [] => false
    else c.isDigit && intTailOK rest

def intDigitsOK : List Char → Bool
  | [] => false
  | c :: rest => c.isDigit && intTailOK rest

/-- Python `int(s)`: optional surrounding whitespace, optional sign, digits
with optional single underscores between digits. -/
def pyIntParseL (l : List Char) : Option ℤ :=
  let l := pyStripL l
  let (sgn, rest) :=
    match l with
    | '-' :: r => ((-1 : ℤ), r)
    | '+' :: r => ((1 : ℤ), r)
    | r => ((1 : ℤ), r)
  if intDigitsOK rest then
    some (sgn * (digitsToNat (rest.filter (· ≠ '_')) : ℤ))
  else none

def pyIntParse (s : String) : Option ℤ := pyIntParseL s.data

def spanDigits (l : List Char) : List Char × List Char :=
  (l.takeWhile Char.isDigit, l.dropWhile Char.isDigit)

/-- Exponent part of a float literal: `(e|E) [sign] digits`, must consume
the rest of the string. -/
def pyFloatExp : List Char → Option ℤ
  | [] => some 0
  | c :: rest =>
    if c = 'e' ∨ c = 'E' then
      let (esgn, r2) :=
        match rest with
        | '-' :: r => ((-1 : ℤ), r)
        | '+' :: r => ((1 : ℤ), r)
        | r => ((1 : ℤ), r)
      let (ed, r3) := spanDigits r2
      if ed ≠ [] ∧ r3 = [] then some (esgn * (digitsToNat ed : ℤ)) else none
    else none

/-- Python `float(s)` restricted to finite decimal/exponent literals
(`inf`/`nan` variants are outside this model; no theorem depends on them).
The value is exact as a rational; IEEE rounding is not modelled. -/
def pyFloatParseL (l : List Char) : Option ℚ :=
  let l := pyStripL l
  let (sgn, rest) :=
    match l with
    | '-' :: r => ((-1 : ℚ), r)
    | '+' :: r => ((1 : ℚ), r)
    | r => ((1 : ℚ), r)
  let (ip, r1) := spanDigits rest
  match r1 with
  | '.' :: r1' =>
    let (fp, r2) := spanDigits r1'
    if ip = [] ∧ fp = [] then none
    else
      match pyFloatExp r2 with
      | some e =>
        some (sgn * ((digitsToNat (ip ++ fp) : ℚ) / (10 : ℚ) ^ fp.length) * (10 : ℚ) ^ e)
      | none => none
  | _ =>
    if ip = [] then none
    else
      match pyFloatExp r1 with
      | some e => some (sgn * (digitsToNat ip : ℚ) * (10 : ℚ) ^ e)
      | none => none

def pyFloatParse (s : String) : Option ℚ := pyFloatParseL s.data

/-! ## CSVParser.clean_field / convert_type (csv_parser.py lines 69-105) -/

/-- The three mis-encoding fix patterns of `clean_field`, in source order. -/
def encodingFixes : List (List Char × List Char) :=
  [("â€™".data, "'".data), ("â€œ".data, "\"".data), ("â€".data, "\"".data)]

def applyEncodingFixes (l : List Char) : List Char :=
  encodingFixes.foldl (fun acc p => replaceSub p.1 p.2 acc) l

def nullSentinels : List (List Char) :=
  ["".data, "n/a".data, "na".data, "null".data, "none".data, "unknown".data, "tbd".data]

/-- `CSVParser.convert_type`: digit-only strings (no '.') become int; strings
containing '.' or 'e'/'E' are tried as float; everything else stays text. -/
def convertTypeL (l : List Char) : Value :=
  if ¬ l.any (fun c => c = '.') ∧ isdigitL l then
    .int (digitsToNat l : ℤ)
  else if l.any (fun c => c = '.') ∨ (toLowerL l).any (fun c => c = 'e') then
    match pyFloatParseL l with
    | some q => .float q
    | none => .text ⟨l⟩
  else .text ⟨l⟩

def convertType (s : String) : Value := convertTypeL s.data

/-- `CSVParser.clean_field`: strip, fix mis-encoded punctuation, map null
sentinels to None, then convert the type. -/
def cleanFieldL (l : List Char) : Value :=
  let f := applyEncodingFixes (pyStripL l)
  if nullSentinels.any (fun s => s = toLowerL f) then .null
  else convertTypeL f

def cleanField (s : String) : Value := cleanFieldL s.data

example : cleanField "123" = .int 123 := by decide
example : cleanField "N/A" = .null := by decide
example : cleanField "" = .null := by decide
example : cleanField "TBD" = .null := by decide
example : cleanField "SNES" = .text "SNES" := by decide
example : cleanField "-5" = .text "-5" := by decide
example : cleanField "+5" = .text "+5" := by decide

/-! ## CSVParser.parse_line (csv_parser.py lines 37-67)

The tokenizer walks the line once: a quote character toggles the in-quotes
flag unless it is a doubled quote inside quotes (which emits one literal
quote and consumes both characters); a delimiter outside quotes ends the
current field; every completed field goes through `clean_field`. -/

def parseLineAux (q delim : Char) : ℕ → List Char → Bool → List Char → List Value
  | 0, l, _, cur => [cleanFieldL (cur.reverse ++ l)]
  | _ + 1, [], _, cur => [cleanFieldL cur.reverse]
  | fuel + 1, c :: rest, inQ, cur =>
    if c = q then
      if inQ then
        match rest with
        | c2 :: rest2 =>
          if c2 = q then parseLineAux q delim fuel rest2 true (q :: cur)
          else parseLineAux q delim fuel rest false cur
        | [] => parseLineAux q delim fuel [] false cur
      else parseLineAux q delim fuel rest true cur
    else if c = delim ∧ inQ = false then
      cleanFieldL cur.reverse :: parseLineAux q delim fuel rest inQ []
    else parseLineAux q delim fuel rest inQ (c :: cur)

/-- `CSVParser.parse_line`: blank lines give no fields at all.  The fuel
argument of the scanner only bounds the number of consumed characters
(each step consumes at least one), so `line.length` is always enough. -/
def parseLine (q delim : Char) (line : String) : List Value :=
  if pyStripL line.data = [] then []
  else parseLineAux q delim line.data.length line.data false []

example : parseLine '"' ',' "a,b" = [.text "a", .text "b"] := by decide
example : parseLine '"' ',' "  " = [] := by decide
example : parseLine '"' ',' "\"a,b\",c" = [.text "a,b", .text "c"] := by decide
example : parseLine '"' ',' "\"a\"\"b\"" = [.text "a\"b"] := by decide

/-! ## CSVParser.detect_delimiter (csv_parser.py lines 18-35)

For each candidate the detector counts occurrences outside quotes, where the
in-quotes flag toggles at a quote character whose predecessor is not the
parser's escape character (backslash by default). -/

def countDetAux (q esc d : Char) : List Char → Bool → Option Char → ℕ
  | [], _, _ => 0
  | c :: rest, inQ, prev =>
    if c = q ∧ (prev = none ∨ ¬ prev = some esc) then
      countDetAux q esc d rest (!inQ) (some c)
    else if c = d ∧ inQ = false then
      1 + countDetAux q esc d rest inQ (some c)
    else countDetAux q esc d rest inQ (some c)

def countDet (q esc d : Char) (line : List Char) : ℕ :=
  countDetAux q esc d line false none

/-- Candidate delimiters in declaration order. -/
def delimCandidates : List Char := [',', ';', '\t', '|']

/-- `CSVParser.detect_delimiter`: Python's `max(counts, key=counts.get)`
returns the first key attaining the maximal count, in insertion order. -/
def detectDelimiter (q esc : Char) (line : List Char) : Char :=
  [';', '\t', '|'].foldl
    (fun best d => if countDet q esc d line > countDet q esc best line then d else best)
    ','

/-- Claim-side definition, following the spec's words: count occurrences
while tracking the same quote-toggle state as the tokenizer (doubled-quote
escape), and pick the maximum with declaration-order tie-break. -/
def countTok (q d : Char) : ℕ → List Char → Bool → ℕ
  | 0, _, _ => 0
  | _ + 1, [], _ => 0
  | fuel + 1, c :: rest, inQ =>
    if c = q then
      if inQ then
        match rest with
        | c2 :: rest2 =>
          if c2 = q then countTok q d fuel rest2 true
          else countTok q d fuel rest false
        | [] => 0
      else countTok q d fuel rest true
    else if c = d ∧ inQ = false then
      1 + countTok q d fuel rest inQ
    else countTok q d fuel rest inQ

def specDetectDelimiter (q : Char) (line : List Char) : Char :=
  [';', '\t', '|'].foldl
    (fun best d =>
      if countTok q d line.length line false > countTok q best line.length line false then d
      else best)
    ','

/-! ## DataFrame core (dataframe.py) -/

structure DataFrame where
  data : List Row
  columns : List String
deriving DecidableEq, Repr

/-- The spec's Table invariant, as an executable check. -/
def rowsConform (df : DataFrame) : Bool :=
  df.data.all (fun r => r.length = df.columns.length)

/-- First row whose length differs from the column count, with its index
(`DataFrame._validate_structure` reports the first offender). -/
def firstBadRow (cols : ℕ) : List Row → ℕ → Option ℕ
  | [], _ => none
  | r :: rest, i => if r.length ≠ cols then some i else firstBadRow cols rest (i + 1)

/-- `DataFrame.__init__` + `_validate_structure`: validation only runs when
both the data and the column list are non-empty (`if self.data and
self.columns:`). -/
def mkDF (d : List Row) (c : List String) : Except Err DataFrame :=
  if d = [] ∨ c = [] then .ok ⟨d, c⟩
  else
    match firstBadRow c.length d 0 with
    | none => .ok ⟨d, c⟩
    | some i => .error (.valueError ("Row " ++ toString i ++ " has wrong number of values"))

theorem firstBadRow_none {cols : ℕ} {d : List Row} {i : ℕ}
    (h : firstBadRow cols d i = none) : ∀ r ∈ d, r.length = cols := by
  induction d generalizing i with
  | nil => simp
  | cons r rest ih =>
    simp only [firstBadRow] at h
    by_cases hr : r.length ≠ cols
    · simp [hr] at h
    · intro x hx
      rcases List.mem_cons.mp hx with hx | hx
      · subst hx; omega
      · exact ih (by simpa [hr] using h) x hx

/-- Inversion for the validated constructor: a successful construction
returns the inputs unchanged, and when the column list is non-empty every
row was checked against the column count. -/
theorem mkDF_ok {d : List Row} {c : List String} {df : DataFrame}
    (h : mkDF d c = .ok df) :
    df.data = d ∧ df.columns = c ∧ (c ≠ [] → rowsConform df = true) := by
  unfold mkDF at h
  by_cases he : d = [] ∨ c = []
  · simp only [he, if_pos] at h
    cases h
    refine ⟨rfl, rfl, ?_⟩
    intro hc
    rcases he with he | he
    · simp [rowsConform, he]
    · exact absurd he hc
  · simp only [he, if_neg, if_false] at h
    cases hfb : firstBadRow c.length d 0 with
    | none =>
      rw [hfb] at h
      cases h
      refine ⟨rfl, rfl, fun _ => ?_⟩
      simp only [rowsConform, List.all_eq_true]
      intro r hr
      have := firstBadRow_none hfb r hr
      simp [this]
    | some i => rw [hfb] at h; cases h

theorem mkDF_ok_of_conform {d : List Row} {c : List String}
    (h : ∀ r ∈ d, r.length = c.length) : mkDF d c = .ok ⟨d, c⟩ := by
  unfold mkDF
  by_cases he : d = [] ∨ c = []
  · simp [he]
  · simp only [he, if_neg, if_false]
    have : ∀ d' i, (∀ r ∈ d', r.length = c.length) → firstBadRow c.length d' i = none := by
      intro d'
      induction d' with
      | nil => intro i _; rfl
      | cons r rest ih =>
        intro i hall
        have hr := hall r (by simp)
        simp only [firstBadRow, hr, ne_eq, not_true_eq_false, if_false]
        exact ih (i + 1) (fun x hx => hall x (by simp [hx]))
    rw [this d 0 h]

/-! ## Python value equality and ordering on cells

`==` between the cell types: None equals only None, numbers compare
numerically across int/float, strings compare as strings, and any other
cross-type pair is unequal.  Ordering comparisons raise TypeError on
mixed number/string or None operands, modelled as `none`. -/

def pyEq : Value → Value → Bool
  | .null, .null => true
  | .int a, .int b => a = b
  | .int a, .float b => (a : ℚ) = b
  | .float a, .int b => a = (b : ℚ)
  | .float a, .float b => a = b
  | .text a, .text b => a = b
  | _, _ => false

def cmpRat (a b : ℚ) : Ordering :=
  if a < b then .lt else if b < a then .gt else .eq

/-- Python code-point-lexicographic string comparison. -/
def cmpCharList : List Char → List Char → Ordering
  | [], [] => .eq
  | [], _ :: _ => .lt
  | _ :: _, [] => .gt
  | a :: xs, b :: ys =>
    if a < b then .lt else if b < a then .gt else cmpCharList xs ys

def cmpInt (a b : ℤ) : Ordering :=
  if a < b then .lt else if b < a then .gt else .eq

/-- Three-way ordering where Python `<`/`>` is defined; `none` is TypeError. -/
def valCmpOrd : Value → Value → Option Ordering
  | .int a, .int b => some (cmpInt a b)
  | .int a, .float b => some (cmpRat (a : ℚ) b)
  | .float a, .int b => some (cmpRat a (b : ℚ))
  | .float a, .float b => some (cmpRat a b)
  | .text a, .text b => some (cmpCharList a.data b.data)
  | _, _ => none

/-- Python `str()` of a cell (float rendering is a stand-in: Python shows
IEEE shortest repr, which this rational model cannot reproduce; no theorem
evaluates it). -/
def renderValue : Value → String
  | .null => "None"
  | .int n => toString n
  | .float q => toString q
  | .text s => s

/-! ## DataFrame.filter string conditions (dataframe.py lines 102-220)

A row is presented to the evaluator as the Python dict built from
`zip(self.columns, row)`: truncated to the shorter side, later duplicate
keys win. -/

def rowDict (cols : List String) (r : Row) : List (String × Value) :=
  cols.zip r

/-- Python dict lookup over the zip (last binding of a key wins). -/
def dictGet (d : List (String × Value)) (k : String) : Option Value :=
  d.foldl (fun acc p => if p.1 = k then some p.2 else acc) none

def dictMem (d : List (String × Value)) (k : String) : Bool :=
  d.any (fun p => p.1 = k)

/-- `DataFrame._parse_literal`: strip whitespace then quote characters, try
int, then float, else keep the text. -/
def parseLiteral (l : List Char) : Value :=
  let l := pyStripCharL '\'' (pyStripCharL '"' (pyStripL l))
  match pyIntParseL l with
  | some n => .int n
  | none =>
    match pyFloatParseL l with
    | some q => .float q
    | none => .text ⟨l⟩

/-- One comparison `<left> <op> <right>` once an operator has split the
condition in exactly two parts (dataframe.py lines 162-199). -/
def evalCmp (op : List Char) (lh rh : List Char) (d : List (String × Value)) : Bool :=
  let left : String := ⟨pyStripL lh⟩
  match dictGet d left with
  | none => false
  | some lv =>
    let rightS : String := ⟨pyStripL rh⟩
    let rv :=
      match dictGet d rightS with
      | some v => v
      | none => parseLiteral rightS.data
    if lv = .null ∨ rv = .null then
      if op = "==".data ∨ op = "=".data then lv = .null ↔ rv = .null
      else if op = "!=".data then ¬ (lv = .null ↔ rv = .null)
      else false
    else if op = "==".data ∨ op = "=".data then pyEq lv rv
    else if op = "!=".data then ¬ pyEq lv rv
    else
      match valCmpOrd lv rv with
      | some o =>
        if op = ">".data then o = .gt
        else if op = "<".data then o = .lt
        else if op = ">=".data then o = .gt ∨ o = .eq
        else if op = "<=".data then o = .lt ∨ o = .eq
        else false
      | none =>
        -- TypeError fallback: `str(l) != str(r)` for ordering operators
        ¬ (renderValue lv = renderValue rv)

/-- Operator scan of `_evaluate_condition`: longest-match-first list; an
operator whose split does not give exactly two parts is skipped. -/
def evalAtomOps (cond : List Char) (d : List (String × Value)) :
    List (List Char) → Bool
  | [] => false
  | op :: rest =>
    if containsSub op cond then
      match splitAllSub op cond with
      | [lh, rh] => evalCmp op lh rh d
      | _ => evalAtomOps cond d rest
    else evalAtomOps cond d rest

def condOps : List (List Char) :=
  [">=".data, "<=".data, "!=".data, "==".data, ">".data, "<".data, "=".data]

def evalAtom (cond : List Char) (d : List (String × Value)) : Bool :=
  evalAtomOps cond d condOps

/-! Connector splitting: `re.split(r'\s+and\s+', cond, flags=IGNORECASE)`.
A match is a maximal whitespace run, the keyword case-insensitively, and a
maximal whitespace run.  The scanner below advances one character when no
match starts at the current position; matches consume at least
`2 + keyword length` characters, so fuel `= length` suffices. -/

def spanWs (l : List Char) : List Char × List Char :=
  (l.takeWhile isPySpace, l.dropWhile isPySpace)

/-- If a `\s+<kw>\s+` match starts at the head of `l`, return the remainder
after the (greedy) match. -/
def matchKwAt (kw : List Char) (l : List Char) : Option (List Char) :=
  let (w1, r1) := spanWs l
  if w1 = [] then none
  else if isPrefixL kw (toLowerL r1) then
    let r2 := r1.drop kw.length
    let (w2, r3) := spanWs r2
    if w2 = [] then none else some r3
  else none

def splitKwF (kw : List Char) : ℕ → List Char → List Char → List (List Char)
  | 0, l, cur => [(cur.reverse ++ l)]
  | _ + 1, [], cur => [cur.reverse]
  | fuel + 1, c :: rest, cur =>
    match matchKwAt kw (c :: rest) with
    | some r => cur.reverse :: splitKwF kw fuel r []
    | none => splitKwF kw fuel rest (c :: cur)

def splitKw (kw l : List Char) : List (List Char) := splitKwF kw l.length l []

def splitAnd (l : List Char) : List (List Char) := splitKw "and".data l

def splitOr (l : List Char) : List (List Char) := splitKw "or".data l

def containsAnd (l : List Char) : Bool := containsSub " and ".data (toLowerL l)

def containsOr (l : List Char) : Bool := containsSub " or ".data (toLowerL l)

/-- Second level of `_evaluate_condition`: a string with no ` and ` either
splits on `or` (any part true) or is a single comparison.  The parts of a
split contain no further connector match, so the recursion of the source
bottoms out here (see `_evaluate_condition`, lines 144-151). -/
def evalOrLevel (cond : List Char) (d : List (String × Value)) : Bool :=
  if containsOr cond then
    (splitOr cond).any (fun p => evalAtom (pyStripL p) d)
  else evalAtom cond d

/-- `DataFrame._evaluate_condition`: split on `and` (all parts), else on
`or` (any part), else a single comparison. -/
def evalCondition (cond : List Char) (d : List (String × Value)) : Bool :=
  if containsAnd cond then
    (splitAnd cond).all (fun p => evalOrLevel (pyStripL p) d)
  else evalOrLevel cond d

/-- `DataFrame.filter` with a string condition. -/
def DataFrame.filterStr (df : DataFrame) (cond : String) : Except Err DataFrame :=
  mkDF (df.data.filter (fun r => evalCondition cond.data (rowDict df.columns r)))
    df.columns

/-- `DataFrame.select`: validate all requested names first (raising KeyError
at the first absent one), then project by first-occurrence column index. -/
def colIndex (cols : List String) (c : String) : ℕ :=
  match cols with
  | [] => 0
  | c' :: rest => if c' = c then 0 else 1 + colIndex rest c

def DataFrame.select (df : DataFrame) (cols : List String) : Except Err DataFrame :=
  match cols.find? (fun c => ¬ df.columns.contains c) with
  | some c => .error (.keyError ("Column '" ++ c ++ "' not found"))
  | none =>
    let idxs := cols.map (colIndex df.columns)
    mkDF (df.data.map (fun r => idxs.map (fun i => r.getD i .null))) cols

example :
    DataFrame.filterStr ⟨[[.text "Doom", .int 1993], [.text "Quake", .int 1996]], ["Name", "Year"]⟩
      "Year < 1994"
    = .ok ⟨[[.text "Doom", .int 1993]], ["Name", "Year"]⟩ := by decide
example :
    DataFrame.filterStr ⟨[[.int 1], [.int 2], [.int 3]], ["x"]⟩ "x >= 2 and x != 3"
    = .ok ⟨[[.int 2]], ["x"]⟩ := by decide
example :
    DataFrame.filterStr ⟨[[.int 1], [.int 2], [.int 3]], ["x"]⟩ "x == 1 or x = 3"
    = .ok ⟨[[.int 1], [.int 3]], ["x"]⟩ := by decide
example :
    DataFrame.select ⟨[[.int 1, .int 2]], ["a", "b"]⟩ ["b"]
    = .ok ⟨[[.int 2]], ["b"]⟩ := by decide

/-! ## DataFrame.sort_values (dataframe.py lines 342-365)

Python sorts `self.data` with key `(row[idx] is None, row[idx])` and
`reverse=not ascending`.  `sorted` is a stable sort; with `reverse=True`
elements with equal keys also keep their original order.  The model sorts
with a stable insertion sort under the corresponding before-relation and
raises TypeError exactly when some pair of keys is incomparable (Python
raises on the first incomparable comparison TimSort performs; with the cell
types at hand a mixed number/text column always triggers one). -/

def rowKey (idx : ℕ) (r : Row) : Bool × Value :=
  let v := r.getD idx .null
  (v = .null, v)

/-- Ordering of Python key tuples `(is_none, value)`: bools compare
False < True; on equal flags the values compare (both None compare equal). -/
def keyCmp (a b : Bool × Value) : Option Ordering :=
  if a.1 = b.1 then
    if a.1 then some .eq
    else valCmpOrd a.2 b.2
  else if a.1 then some .gt else some .lt

/-- May `a` be placed before `b` in the sorted output? (ties keep original
order, so equal keys allow it in both directions). -/
def keyLeB (ascending : Bool) (a b : Bool × Value) : Bool :=
  match (if ascending then keyCmp a b else keyCmp b a) with
  | some .lt => true
  | some .eq => true
  | _ => false

/-- Stable insertion sort: an element is inserted after every earlier
element it may follow. -/
def pyInsert (le : α → α → Bool) (a : α) : List α → List α
  | [] => [a]
  | b :: l => if le a b then a :: b :: l else b :: pyInsert le a l

def pySort (le : α → α → Bool) : List α → List α
  | [] => []
  | a :: l => pyInsert le a (pySort le l)

def sortComparable (df : DataFrame) (idx : ℕ) : Bool :=
  let ks := df.data.map (rowKey idx)
  ks.all (fun a => ks.all (fun b => (keyCmp a b).isSome))

def DataFrame.sortValues (df : DataFrame) (c : String) (ascending : Bool) :
    Except Err DataFrame :=
  if df.columns.contains c = false then
    .error (.keyError ("Column '" ++ c ++ "' not found"))
  else
    let idx := colIndex df.columns c
    if sortComparable df idx then
      mkDF (pySort (fun r1 r2 => keyLeB ascending (rowKey idx r1) (rowKey idx r2)) df.data)
        df.columns
    else .error .typeError

/-! ## DataFrame.join (dataframe.py lines 262-326) -/

/-- Output column names: all left columns, then each right column, renamed
with the fixed `_right` suffix when it is already present among the names
accumulated so far. -/
def joinCols (lc rc : List String) : List String :=
  rc.foldl (fun acc col => if acc.contains col then acc ++ [col ++ "_right"] else acc ++ [col]) lc

/-- Inner join: nested scan appending one combined row per matching pair. -/
def innerJoinData (ld rd : List Row) (li ri : ℕ) : List Row :=
  ld.foldl
    (fun acc l =>
      rd.foldl
        (fun acc2 r =>
          if pyEq (l.getD li .null) (r.getD ri .null) then acc2 ++ [l ++ r] else acc2)
        acc)
    []

/-- The inner scan of the left join for one left row: accumulated matches
and the `matched` flag. -/
def leftScanRow (rd : List Row) (li ri : ℕ) (l : Row) : List Row × Bool :=
  rd.foldl
    (fun p r =>
      if pyEq (l.getD li .null) (r.getD ri .null) then (p.1 ++ [l ++ r], true) else p)
    ([], false)

def leftJoinData (ld rd : List Row) (li ri rlen : ℕ) : List Row :=
  ld.foldl
    (fun acc l =>
      let p := leftScanRow rd li ri l
      acc ++ p.1 ++ (if p.2 then [] else [l ++ List.replicate rlen .null]))
    []

def DataFrame.join (df other : DataFrame) (onCol : String) (how : String) :
    Except Err DataFrame :=
  if df.columns.contains onCol = false then
    .error (.keyError ("Column '" ++ onCol ++ "' not found in left DataFrame"))
  else if other.columns.contains onCol = false then
    .error (.keyError ("Column '" ++ onCol ++ "' not found in right DataFrame"))
  else
    let li := colIndex df.columns onCol
    let ri := colIndex other.columns onCol
    let newCols := joinCols df.columns other.columns
    if how = "inner" then
      mkDF (innerJoinData df.data other.data li ri) newCols
    else if how = "left" then
      mkDF (leftJoinData df.data other.data li ri other.columns.length) newCols
    else
      .error (.valueError ("Join type '" ++ how ++ "' not supported. Use 'inner' or 'left'."))

/-! ## GroupedDataFrame (dataframe.py lines 391-497) -/

/-- Python `==` on group-key tuples. -/
def keyTupEq : List Value → List Value → Bool
  | [], [] => true
  | a :: xs, b :: ys => pyEq a b && keyTupEq xs ys
  | _, _ => false

/-- Insert a row into the group association list: append to the first entry
with an equal key (dict semantics keep the first-inserted key and the
insertion order of keys), otherwise add a new entry at the end. -/
def addToGroup : List (List Value × List Row) → List Value → Row →
    List (List Value × List Row)
  | [], k, r => [(k, [r])]
  | (k', rs) :: rest, k, r =>
    if keyTupEq k' k then (k', rs ++ [r]) :: rest
    else (k', rs) :: addToGroup rest k r

def rowKeyTup (idxs : List ℕ) (r : Row) : List Value :=
  idxs.map (fun i => r.getD i .null)

/-- `GroupedDataFrame._create_groups`: one pass over the rows. -/
def groupsOfRows (rows : List Row) (idxs : List ℕ) : List (List Value × List Row) :=
  rows.foldl (fun gs r => addToGroup gs (rowKeyTup idxs r) r) []

structure GroupedDataFrame where
  df : DataFrame
  byCols : List String
  groups : List (List Value × List Row)
deriving DecidableEq, Repr

/-- `DataFrame.group_by`: the constructor immediately builds the groups;
`list.index` raises ValueError on a missing group-by column. -/
def DataFrame.groupBy (df : DataFrame) (byCols : List String) :
    Except Err GroupedDataFrame :=
  match byCols.find? (fun c => ¬ df.columns.contains c) with
  | some c => .error (.valueError ("'" ++ c ++ "' is not in list"))
  | none => .ok ⟨df, byCols, groupsOfRows df.data (byCols.map (colIndex df.columns))⟩

def toQ : Value → Option ℚ
  | .int n => some (n : ℚ)
  | .float q => some q
  | _ => none

/-- Python `sum` over the collected cells (starts from int 0; int stays int,
any float makes a float, anything else is TypeError). -/
def addVal : Value → Value → Except Err Value
  | .int a, .int b => .ok (.int (a + b))
  | .int a, .float b => .ok (.float ((a : ℚ) + b))
  | .float a, .int b => .ok (.float (a + (b : ℚ)))
  | .float a, .float b => .ok (.float (a + b))
  | _, _ => .error .typeError

def pySum (vs : List Value) : Except Err Value :=
  vs.foldlM addVal (.int 0)

def pyMean (vs : List Value) : Except Err Value := do
  let s ← pySum vs
  match toQ s with
  | some q => .ok (.float (q / (vs.length : ℚ)))
  | none => .error .typeError

def allPairsComparable (vs : List Value) : Bool :=
  vs.all (fun a => vs.all (fun b => (valCmpOrd a b).isSome))

def pyMaxV (vs : List Value) : Except Err Value :=
  match vs with
  | [] => .error (.valueError "max() arg is an empty sequence")
  | v :: rest =>
    if allPairsComparable vs then
      .ok (rest.foldl (fun cur x => if valCmpOrd x cur = some .gt then x else cur) v)
    else .error .typeError

def pyMinV (vs : List Value) : Except Err Value :=
  match vs with
  | [] => .error (.valueError "min() arg is an empty sequence")
  | v :: rest =>
    if allPairsComparable vs then
      .ok (rest.foldl (fun cur x => if valCmpOrd x cur = some .lt then x else cur) v)
    else .error .typeError

def valLeB (a b : Value) : Bool :=
  match valCmpOrd a b with
  | some .lt => true
  | some .eq => true
  | _ => false

/-- Rational stand-in for `variance ** 0.5` (a few Newton steps; Python
computes an IEEE square root — no theorem evaluates this). -/
def ratSqrtIter : ℕ → ℚ → ℚ → ℚ
  | 0, _, x => x
  | n + 1, a, x => ratSqrtIter n a ((x + a / x) / 2)

def ratSqrt (a : ℚ) : ℚ := if a ≤ 0 then 0 else ratSqrtIter 12 a (a + 1)

def pyMedian (vs : List Value) : Except Err Value :=
  if allPairsComparable vs then
    let sortedVals := pySort valLeB vs
    let n := sortedVals.length
    if n % 2 = 0 then
      match toQ (sortedVals.getD (n / 2 - 1) .null), toQ (sortedVals.getD (n / 2) .null) with
      | some a, some b => .ok (.float ((a + b) / 2))
      | _, _ => .error .typeError
    else .ok (sortedVals.getD (n / 2) .null)
  else .error .typeError

def pyStd (vs : List Value) : Except Err Value := do
  let s ← pySum vs
  match toQ s with
  | some q =>
    let m := q / (vs.length : ℚ)
    let var := ((vs.filterMap toQ).map (fun x => (x - m) ^ 2)).sum / (vs.length : ℚ)
    .ok (.float (ratSqrt var))
  | none => .error .typeError

/-- `GroupedDataFrame._calculate_agg`: an empty post-null-filter sample
yields None before the function name is even inspected; an unknown name on
a non-empty sample raises ValueError. -/
def calcAgg (values : List Value) (func : String) : Except Err Value :=
  if values = [] then .ok .null
  else if func = "count" then .ok (.int (values.length : ℤ))
  else if func = "sum" then pySum values
  else if func = "mean" then pyMean values
  else if func = "avg" then pyMean values
  else if func = "max" then pyMaxV values
  else if func = "min" then pyMinV values
  else if func = "median" then pyMedian values
  else if func = "std" then pyStd values
  else .error (.valueError ("Unknown aggregation function: " ++ func))

/-- The non-null cells of one column across the member rows of a group, in
row order. -/
def nonNullVals (idx : ℕ) (rows : List Row) : List Value :=
  (rows.map (fun r => r.getD idx .null)).filter (fun v => v ≠ .null)

def aggFuncs (vals : List Value) : List String → Except Err (List Value)
  | [] => .ok []
  | f :: fs => do
    let v ← calcAgg vals f
    let more ← aggFuncs vals fs
    .ok (v :: more)

/-- The aggregate cells appended after the group key for one group, walking
the spec in order; a spec column absent from the source raises KeyError. -/
def aggRowTail (dfCols : List String) (rows : List Row) :
    List (String × List String) → Except Err (List Value)
  | [] => .ok []
  | (c, fs) :: rest =>
    if dfCols.contains c = false then .error (.keyError ("Column '" ++ c ++ "' not found"))
    else do
      let here ← aggFuncs (nonNullVals (colIndex dfCols c) rows) fs
      let more ← aggRowTail dfCols rows rest
      .ok (here ++ more)

def aggRows (dfCols : List String) (spec : List (String × List String)) :
    List (List Value × List Row) → Except Err (List Row)
  | [] => .ok []
  | (k, rows) :: rest => do
    let tail ← aggRowTail dfCols rows spec
    let more ← aggRows dfCols spec rest
    .ok ((k ++ tail) :: more)

/-- `GroupedDataFrame.agg` (spec given as an association list of column to
function names, the normalized form of the Python dict argument). -/
def GroupedDataFrame.agg (g : GroupedDataFrame) (spec : List (String × List String)) :
    Except Err DataFrame :=
  let resultCols := g.byCols ++ spec.flatMap (fun p => p.2.map (fun f => p.1 ++ "_" ++ f))
  (aggRows g.df.columns spec g.groups).bind (fun rows => mkDF rows resultCols)

/-! ## Ingestion (CSVParser.parse_file, csv_parser.py lines 107-165)

File IO and the encoding fallback chain are outside the embedding; the
pipeline below starts from the decoded lines.  Header cells go through the
same `parse_line` coercion as data cells; non-text header values are
rendered back to strings here (column names are strings in this model). -/

def padTrunc (hlen : ℕ) (r : Row) : Row :=
  (r ++ List.replicate (hlen - r.length) Value.null).take hlen

def parseLinesToDF (q delim0 : Char) (autoDetect hasHeader : Bool)
    (lines : List String) : Except Err DataFrame :=
  match lines with
  | [] => mkDF [] []
  | first :: rest =>
    let delim := if autoDetect then detectDelimiter q '\\' first.data else delim0
    let headers :=
      if hasHeader then (parseLine q delim first).map renderValue
      else (List.range (parseLine q delim first).length).map (fun i => "column_" ++ toString i)
    let dataLines := if hasHeader then rest else first :: rest
    let rows := dataLines.filterMap (fun ln =>
      let r := parseLine q delim ln
      if r = [] then none else some (padTrunc headers.length r))
    mkDF rows headers

example :
    DataFrame.join ⟨[[.int 1, .text "x"]], ["id", "val"]⟩ ⟨[], ["id", "score"]⟩ "id" "left"
    = .ok ⟨[[.int 1, .text "x", .null, .null]], ["id", "val", "id_right", "score"]⟩ := by
  decide
example :
    DataFrame.join ⟨[[.int 1, .text "x"], [.int 2, .text "y"]], ["id", "val"]⟩
      ⟨[[.int 2, .text "z"]], ["id", "score"]⟩ "id" "inner"
    = .ok ⟨[[.int 2, .text "y", .int 2, .text "z"]], ["id", "val", "id_right", "score"]⟩ := by
  decide
example :
    (DataFrame.groupBy ⟨[[.text "PC", .int 1], [.text "PC", .int 2], [.text "S", .int 3]], ["p", "s"]⟩
        ["p"]).bind (fun g => g.agg [("s", ["sum", "count"])])
    = .ok ⟨[[.text "PC", .int 3, .int 2], [.text "S", .int 3, .int 1]], ["p", "s_sum", "s_count"]⟩ := by
  decide
example :
    DataFrame.sortValues ⟨[[.int 3], [.null], [.int 1]], ["x"]⟩ "x" true
    = .ok ⟨[[.int 1], [.int 3], [.null]], ["x"]⟩ := by decide
example :
    DataFrame.sortValues ⟨[[.int 3], [.null], [.int 1]], ["x"]⟩ "x" false
    = .ok ⟨[[.null], [.int 3], [.int 1]], ["x"]⟩ := by decide
example :
    parseLinesToDF '"' ',' true true ["Name,Year", "Doom,1993", "Quake,"]
    = .ok ⟨[[.text "Doom", .int 1993], [.text "Quake", .null]], ["Name", "Year"]⟩ := by decide

/-! ## Helper lemmas about coercion on digit strings -/

theorem isDigit_toLower {c : Char} (h : c.isDigit = true) : c.toLower = c := by
  simp only [Char.isDigit, Bool.and_eq_true, decide_eq_true_eq] at h
  have h1 : (48 : UInt32) ≤ c.val := h.1
  have h2 : c.val ≤ (57 : UInt32) := h.2
  have h1' : 48 ≤ c.val.toNat := h1
  have h2' : c.val.toNat ≤ 57 := h2
  simp only [Char.toLower, Char.toNat]
  rw [if_neg]
  omega

theorem isDigit_ne {c c0 : Char} (h : c.isDigit = true) (h0 : c0.isDigit = false) :
    c ≠ c0 := by
  intro he
  subst he
  rw [h] at h0
  cases h0

theorem dropWhile_eq_self_of_false {p : α → Bool} {l : List α}
    (h : ∀ c ∈ l, p c = false) : l.dropWhile p = l := by
  cases l with
  | nil => rfl
  | cons a t => simp [List.dropWhile_cons, h a (by simp)]

theorem pyStripL_eq_self {l : List Char} (h : ∀ c ∈ l, isPySpace c = false) :
    pyStripL l = l := by
  unfold pyStripL
  rw [dropWhile_eq_self_of_false h,
    dropWhile_eq_self_of_false (fun c hc => h c (List.mem_reverse.mp hc)),
    List.reverse_reverse]

theorem isDigit_not_ws {c : Char} (h : c.isDigit = true) : isPySpace c = false := by
  simp only [isPySpace, Bool.or_eq_false_iff, decide_eq_false_iff_not]
  refine ⟨⟨⟨⟨⟨?_, ?_⟩, ?_⟩, ?_⟩, ?_⟩, ?_⟩ <;> exact isDigit_ne h (by decide)

theorem replaceSubF_eq_self {pat repl l : List Char} {c0 : Char}
    (hpat : ∃ t, pat = c0 :: t) (h : ∀ c ∈ l, c ≠ c0) :
    ∀ fuel, replaceSubF pat repl fuel l = l := by
  induction l with
  | nil => intro fuel; cases fuel <;> rfl
  | cons c rest ih =>
    intro fuel
    cases fuel with
    | zero => rfl
    | succ f =>
      obtain ⟨t, ht⟩ := hpat
      have hc : c ≠ c0 := h c (by simp)
      have hpre : isPrefixL pat (c :: rest) = false := by
        subst ht
        simp only [isPrefixL, Bool.and_eq_false_iff, decide_eq_false_iff_not]
        exact Or.inl (fun he => hc he.symm)
      rw [replaceSubF, if_neg (by simp [hpre]),
        ih (fun x hx => h x (by simp [hx])) f]

theorem applyEncodingFixes_eq_self {l : List Char} (h : ∀ c ∈ l, c ≠ 'â') :
    applyEncodingFixes l = l := by
  have e1 : replaceSub "â€™".data "'".data l = l :=
    replaceSubF_eq_self ⟨['€', '™'], rfl⟩ h l.length
  have step : applyEncodingFixes l
      = replaceSub "â€".data "\"".data (replaceSub "â€œ".data "\"".data
          (replaceSub "â€™".data "'".data l)) := rfl
  rw [step, e1]
  have e2 : replaceSub "â€œ".data "\"".data l = l :=
    replaceSubF_eq_self ⟨['€', 'œ'], rfl⟩ h l.length
  rw [e2]
  exact replaceSubF_eq_self ⟨['€'], rfl⟩ h l.length

theorem toLowerL_eq_self_of_digits {l : List Char} (h : ∀ c ∈ l, c.isDigit = true) :
    toLowerL l = l := by
  unfold toLowerL
  rw [List.map_congr_left (fun c hc => isDigit_toLower (h c hc))]
  simp

theorem sentinels_not_digits {c : Char} {t : List Char} (hc : c.isDigit = true) :
    nullSentinels.any (fun s => s = c :: t) = false := by
  have hn : ('n' : Char) ≠ c := fun he => isDigit_ne hc (by decide) he.symm
  have hu : ('u' : Char) ≠ c := fun he => isDigit_ne hc (by decide) he.symm
  have ht : ('t' : Char) ≠ c := fun he => isDigit_ne hc (by decide) he.symm
  simp [nullSentinels, hn, hu, ht]

theorem sentinels_head_ne {c : Char} {t : List Char}
    (hn : ('n' : Char) ≠ c) (hu : ('u' : Char) ≠ c) (ht : ('t' : Char) ≠ c) :
    nullSentinels.any (fun s => s = c :: t) = false := by
  simp [nullSentinels, hn, hu, ht]

theorem convertTypeL_digits {l : List Char} (h1 : l ≠ [])
    (h2 : ∀ c ∈ l, c.isDigit = true) :
    convertTypeL l = .int (digitsToNat l : ℤ) := by
  have hdot : l.any (fun c => c = '.') = false := by
    rw [List.any_eq_false]
    intro c hc
    simp only [decide_eq_true_eq]
    exact isDigit_ne (h2 c hc) (show Char.isDigit '.' = false by decide)
  have hdig : isdigitL l = true := by
    unfold isdigitL
    rw [Bool.and_eq_true]
    refine ⟨by simpa using h1, ?_⟩
    rw [List.all_eq_true]
    exact h2
  unfold convertTypeL
  split
  · rfl
  · next hcond =>
    exfalso
    exact hcond ⟨by simp [hdot], hdig⟩

theorem cleanFieldL_digits {l : List Char} (h1 : l ≠ [])
    (h2 : ∀ c ∈ l, c.isDigit = true) :
    cleanFieldL l = .int (digitsToNat l : ℤ) := by
  have hstrip : pyStripL l = l := pyStripL_eq_self (fun c hc => isDigit_not_ws (h2 c hc))
  have hfix : applyEncodingFixes l = l :=
    applyEncodingFixes_eq_self
      (fun c hc => isDigit_ne (h2 c hc) (show Char.isDigit 'â' = false by decide))
  have hlow : toLowerL l = l := toLowerL_eq_self_of_digits h2
  show (if nullSentinels.any (fun s => s = toLowerL (applyEncodingFixes (pyStripL l))) then
      Value.null else convertTypeL (applyEncodingFixes (pyStripL l))) = _
  rw [hstrip, hfix, hlow]
  cases l with
  | nil => exact absurd rfl h1
  | cons c t =>
    rw [if_neg (by simp [sentinels_not_digits (h2 c (by simp))])]
    exact convertTypeL_digits h1 h2

theorem cleanFieldL_signed {sgn : Char} {ds : List Char} (hs : sgn = '+' ∨ sgn = '-')
    (_h1 : ds ≠ []) (h2 : ∀ c ∈ ds, c.isDigit = true) :
    cleanFieldL (sgn :: ds) = .text ⟨sgn :: ds⟩ := by
  have hsl : ∀ c ∈ sgn :: ds, isPySpace c = false := by
    intro c hc
    rcases List.mem_cons.mp hc with hc | hc
    · subst hc; rcases hs with hs | hs <;> subst hs <;> decide
    · exact isDigit_not_ws (h2 c hc)
  have hsa : ∀ c ∈ sgn :: ds, c ≠ 'â' := by
    intro c hc
    rcases List.mem_cons.mp hc with hc | hc
    · subst hc; rcases hs with hs | hs <;> subst hs <;> decide
    · exact isDigit_ne (h2 c hc) (show Char.isDigit 'â' = false by decide)
  have hstrip : pyStripL (sgn :: ds) = sgn :: ds := pyStripL_eq_self hsl
  have hfix : applyEncodingFixes (sgn :: ds) = sgn :: ds := applyEncodingFixes_eq_self hsa
  have hlowsgn : sgn.toLower = sgn := by
    rcases hs with hs | hs <;> subst hs <;> decide
  have hlow : toLowerL (sgn :: ds) = sgn :: toLowerL ds := by
    simp [toLowerL, hlowsgn]
  have hsent : nullSentinels.any (fun s => s = sgn :: toLowerL ds) = false := by
    refine sentinels_head_ne ?_ ?_ ?_ <;>
      (rcases hs with hs | hs <;> subst hs <;> decide)
  have hdot : (sgn :: ds).any (fun c => c = '.') = false := by
    rw [List.any_eq_false]
    intro c hc
    simp only [decide_eq_true_eq]
    rcases List.mem_cons.mp hc with hc | hc
    · subst hc; rcases hs with hs | hs <;> subst hs <;> decide
    · exact isDigit_ne (h2 c hc) (show Char.isDigit '.' = false by decide)
  have hdig : isdigitL (sgn :: ds) = false := by
    unfold isdigitL
    rw [Bool.and_eq_false_iff]
    right
    rw [List.all_cons, Bool.and_eq_false_iff]
    left
    rcases hs with hs | hs <;> subst hs <;> decide
  have he : (toLowerL (sgn :: ds)).any (fun c => c = 'e') = false := by
    rw [hlow, List.any_cons, Bool.or_eq_false_iff]
    constructor
    · rcases hs with hs | hs <;> subst hs <;> decide
    · rw [List.any_eq_false]
      intro c hc
      simp only [decide_eq_true_eq]
      obtain ⟨c0, hc0, hce⟩ := List.mem_map.mp hc
      subst hce
      rw [isDigit_toLower (h2 c0 hc0)]
      exact isDigit_ne (h2 c0 hc0) (show Char.isDigit 'e' = false by decide)
  show (if nullSentinels.any (fun s => s = toLowerL (applyEncodingFixes (pyStripL (sgn :: ds)))) then
      Value.null else convertTypeL (applyEncodingFixes (pyStripL (sgn :: ds)))) = _
  rw [hstrip, hfix, hlow]
  rw [if_neg (by simp [hsent])]
  unfold convertTypeL
  split
  · next hcond =>
    exfalso
    rw [hdig] at hcond
    exact absurd hcond.2 (by simp)
  · split
    · next hcond =>
      exfalso
      rcases hcond with hor | hor
      · rw [hdot] at hor; cases hor
      · rw [he] at hor; cases hor
    · rfl

/-- Claim C4 (amended): Value Coercion maps every non-empty unsigned string
of (ASCII) digits to the Integer it denotes in decimal; but a leading '+' or
'-' sign defeats Python's `str.isdigit`, so a signed digit string is NOT
converted — it falls through to Text unchanged. -/
theorem C4_coercion :
    (∀ s : String, s.data ≠ [] → (∀ c ∈ s.data, c.isDigit = true) →
        cleanField s = .int (digitsToNat s.data : ℤ)) ∧
    (∀ sgn : Char, ∀ ds : List Char, sgn = '+' ∨ sgn = '-' → ds ≠ [] →
        (∀ c ∈ ds, c.isDigit = true) →
        cleanField ⟨sgn :: ds⟩ = .text ⟨sgn :: ds⟩) := by
  constructor
  · intro s h1 h2
    exact cleanFieldL_digits h1 h2
  · intro sgn ds hs h1 h2
    exact cleanFieldL_signed hs h1 h2

/-- Claim C4 counterexample: the claim promises Integer -5 for the input
"-5" ("digits optionally preceded by a leading sign"), but Value Coercion
returns Text "-5": Python's `"-5".isdigit()` is False, and the float branch
is not entered because the string has no '.' and no 'e'. -/
theorem C4_cex :
    cleanField "-5" = Value.text "-5" ∧ cleanField "-5" ≠ Value.int (-5) := by
  decide

theorem C4_coercion_w :
    cleanField "123" = Value.int 123 ∧ cleanField "-7" = Value.text "-7" := by
  constructor
  · have h := C4_coercion.1 "123" (by decide) (by decide)
    rw [h]; decide
  · exact C4_coercion.2 '-' ['7'] (Or.inr rfl) (by decide) (by decide)

/-! ## Claim C1 -/

theorem padTrunc_length (hlen : ℕ) (r : Row) : (padTrunc hlen r).length = hlen := by
  simp only [padTrunc, List.length_take, List.length_append, List.length_replicate]
  omega

theorem ifRow_length {cond : Prop} [Decidable cond] {hlen : ℕ} {x r : Row}
    (heq : (if cond then none else some (padTrunc hlen x)) = some r) :
    r.length = hlen := by
  by_cases hcond : cond
  · rw [if_pos hcond] at heq
    exact absurd heq (by simp)
  · rw [if_neg hcond] at heq
    cases heq
    exact padTrunc_length hlen x

/-- Claim C1 (amended): every Table returned by the validated constructor,
select, filter, sort_values, join or agg satisfies the row-width invariant
provided its column list is non-empty; `_validate_structure` is skipped when
the data or the column list is empty (`if self.data and self.columns:`), so
direct construction with an empty column list and non-empty rows returns a
Table violating the invariant instead of failing (see the counterexample).
Ingestion always satisfies the invariant because every parsed row is
padded/truncated to the header width. -/
theorem C1_rowWidth :
    (∀ d c df, mkDF d c = .ok df → c ≠ [] → rowsConform df = true) ∧
    (∀ df cols out, DataFrame.select df cols = .ok out → out.columns ≠ [] →
        rowsConform out = true) ∧
    (∀ df cond out, DataFrame.filterStr df cond = .ok out → out.columns ≠ [] →
        rowsConform out = true) ∧
    (∀ df c asc out, DataFrame.sortValues df c asc = .ok out → out.columns ≠ [] →
        rowsConform out = true) ∧
    (∀ df other onCol how out, DataFrame.join df other onCol how = .ok out →
        out.columns ≠ [] → rowsConform out = true) ∧
    (∀ g spec out, GroupedDataFrame.agg g spec = .ok out → out.columns ≠ [] →
        rowsConform out = true) ∧
    (∀ q d ad hh lines out, parseLinesToDF q d ad hh lines = .ok out →
        rowsConform out = true) := by
  refine ⟨?_, ?_, ?_, ?_, ?_, ?_, ?_⟩
  · intro d c df h hc
    exact (mkDF_ok h).2.2 hc
  · intro df cols out h hc
    unfold DataFrame.select at h
    split at h
    · exact Except.noConfusion h
    · exact (mkDF_ok h).2.2 (by intro he; exact hc ((mkDF_ok h).2.1 ▸ he))
  · intro df cond out h hc
    exact (mkDF_ok h).2.2 (by intro he; exact hc ((mkDF_ok h).2.1 ▸ he))
  · intro df c asc out h hc
    unfold DataFrame.sortValues at h
    split at h
    · exact Except.noConfusion h
    · dsimp only at h
      split at h
      · exact (mkDF_ok h).2.2 (by intro he; exact hc ((mkDF_ok h).2.1 ▸ he))
      · exact Except.noConfusion h
  · intro df other onCol how out h hc
    unfold DataFrame.join at h
    split at h
    · exact Except.noConfusion h
    · split at h
      · exact Except.noConfusion h
      · split at h
        · exact (mkDF_ok h).2.2 (by intro he; exact hc ((mkDF_ok h).2.1 ▸ he))
        · split at h
          · exact (mkDF_ok h).2.2 (by intro he; exact hc ((mkDF_ok h).2.1 ▸ he))
          · exact Except.noConfusion h
  · intro g spec out h hc
    unfold GroupedDataFrame.agg at h
    cases hag : aggRows g.df.columns spec g.groups with
    | error e => rw [hag] at h; exact Except.noConfusion h
    | ok rows =>
      rw [hag] at h
      simp only [Except.bind] at h
      exact (mkDF_ok h).2.2 (by intro he; exact hc ((mkDF_ok h).2.1 ▸ he))
  · intro q d ad hh lines out h
    cases lines with
    | nil =>
      simp only [parseLinesToDF] at h
      have hd := (mkDF_ok h).1
      simp [rowsConform, hd]
    | cons first rest =>
      simp only [parseLinesToDF] at h
      have hd := (mkDF_ok h).1
      have hcols := (mkDF_ok h).2.1
      simp only [rowsConform, List.all_eq_true]
      intro r hr
      rw [hd] at hr
      obtain ⟨ln, _, heq⟩ := List.mem_filterMap.mp hr
      have hlen := ifRow_length heq
      simp [hcols, hlen]

/-- Claim C1 counterexample: constructing a Table from one row of length 1
and an empty column list succeeds (validation is guarded by
`if self.data and self.columns:`), yet the returned Table violates the
row-width invariant — so the operation neither preserves the invariant nor
fails before returning. -/
theorem C1_cex :
    mkDF [[Value.int 1]] [] = .ok ⟨[[Value.int 1]], []⟩ ∧
    rowsConform ⟨[[Value.int 1]], []⟩ = false := by
  decide

theorem C1_rowWidth_w : rowsConform ⟨[[Value.int 1]], ["a"]⟩ = true :=
  C1_rowWidth.1 [[Value.int 1]] ["a"] ⟨[[Value.int 1]], ["a"]⟩ (by decide) (by decide)

/-! ## Claim C9 -/

/-- Does a name end with the join disambiguation suffix `_right`? -/
def endsRight (s : String) : Bool := isPrefixL "_right".data.reverse s.data.reverse

theorem isPrefixL_append (pat t : List Char) : isPrefixL pat (pat ++ t) = true := by
  induction pat with
  | nil => rfl
  | cons a xs ih => simp [isPrefixL, ih]

theorem endsRight_append (c : String) : endsRight (c ++ "_right") = true := by
  unfold endsRight
  rw [String.data_append, List.reverse_append]
  exact isPrefixL_append _ _

theorem append_right_inj {c d : String} (h : c ++ "_right" = d ++ "_right") : c = d := by
  have hd : c.data ++ "_right".data = d.data ++ "_right".data := by
    rw [← String.data_append, ← String.data_append, h]
  have h2 := List.append_cancel_right hd
  cases c; cases d
  exact congrArg String.mk h2

theorem nodup_append_singleton {l : List String} {a : String}
    (h : l.Nodup) (ha : a ∉ l) : (l ++ [a]).Nodup := by
  rw [List.nodup_append]
  exact ⟨h, List.nodup_singleton a,
    fun x hx hxa => ha ((List.mem_singleton.mp hxa) ▸ hx)⟩

theorem joinCols_fold_nodup :
    ∀ (rc : List String) (acc done : List String),
      acc.Nodup →
      (∀ x ∈ acc, endsRight x = false ∨ ∃ d, x = d ++ "_right" ∧ d ∈ done) →
      (∀ c ∈ rc, c ∉ done) →
      (∀ c ∈ rc, endsRight c = false) →
      rc.Nodup →
      (rc.foldl (fun acc col =>
          if acc.contains col then acc ++ [col ++ "_right"] else acc ++ [col]) acc).Nodup := by
  intro rc
  induction rc with
  | nil => intro acc done hacc _ _ _ _; exact hacc
  | cons c rc' ih =>
    intro acc done hacc hend hdone hnr hnodup
    rw [List.foldl_cons]
    by_cases hmem : acc.contains c = true
    · rw [if_pos hmem]
      have hfresh : c ++ "_right" ∉ acc := by
        intro hx
        rcases hend _ hx with hf | ⟨d, hdx, hdd⟩
        · rw [endsRight_append] at hf
          exact Bool.noConfusion hf
        · have hdc : c = d := append_right_inj hdx
          exact hdone c (by simp) (hdc ▸ hdd)
      refine ih _ (done ++ [c]) (nodup_append_singleton hacc hfresh) ?_ ?_ ?_
        (List.nodup_cons.mp hnodup).2
      · intro x hx
        rcases List.mem_append.mp hx with hx | hx
        · rcases hend x hx with hf | ⟨d, hdx, hdd⟩
          · exact Or.inl hf
          · exact Or.inr ⟨d, hdx, by simp [hdd]⟩
        · rcases List.mem_singleton.mp hx with rfl
          exact Or.inr ⟨c, rfl, by simp⟩
      · intro x hx hxm
        rcases List.mem_append.mp hxm with hxd | hxc
        · exact hdone x (by simp [hx]) hxd
        · exact absurd ((List.mem_singleton.mp hxc) ▸ hx) (List.nodup_cons.mp hnodup).1
      · intro x hx
        exact hnr x (by simp [hx])
    · rw [if_neg hmem]
      have hfresh : c ∉ acc := fun hx => hmem (by simpa using hx)
      refine ih _ done (nodup_append_singleton hacc hfresh) ?_ ?_ ?_
        (List.nodup_cons.mp hnodup).2
      · intro x hx
        rcases List.mem_append.mp hx with hx | hx
        · exact hend x hx
        · have hxc : x = c := List.mem_singleton.mp hx
          subst hxc
          exact Or.inl (hnr x (by simp))
      · intro x hx
        exact hdone x (by simp [hx])
      · intro x hx
        exact hnr x (by simp [hx])

/-- Claim C9 (amended): select returns exactly the requested name list, so
its output has pairwise-unique names iff the request does — a repeated
requested name is copied verbatim (see the counterexample), so uniqueness is
NOT guaranteed for every requested name list; join renames each right
column colliding with an already-accumulated name by appending the fixed
suffix `_right`, which yields pairwise-unique output names whenever both
inputs have unique names and no input name already ends in `_right`. -/
theorem C9_uniqueCols :
    (∀ df cols out, DataFrame.select df cols = .ok out → out.columns = cols) ∧
    (∀ df cols out, DataFrame.select df cols = .ok out → cols.Nodup →
        out.columns.Nodup) ∧
    (∀ l r onCol how out, DataFrame.join l r onCol how = .ok out →
        out.columns = joinCols l.columns r.columns) ∧
    (∀ l r onCol how out, DataFrame.join l r onCol how = .ok out →
        l.columns.Nodup → r.columns.Nodup →
        (∀ c ∈ l.columns, endsRight c = false) →
        (∀ c ∈ r.columns, endsRight c = false) →
        out.columns.Nodup) := by
  have hsel : ∀ df cols out, DataFrame.select df cols = .ok out → out.columns = cols := by
    intro df cols out h
    unfold DataFrame.select at h
    split at h
    · exact Except.noConfusion h
    · exact (mkDF_ok h).2.1
  have hjoin : ∀ l r onCol how out, DataFrame.join l r onCol how = .ok out →
      out.columns = joinCols l.columns r.columns := by
    intro l r onCol how out h
    unfold DataFrame.join at h
    split at h
    · exact Except.noConfusion h
    · split at h
      · exact Except.noConfusion h
      · dsimp only at h
        split at h
        · exact (mkDF_ok h).2.1
        · split at h
          · exact (mkDF_ok h).2.1
          · exact Except.noConfusion h
  refine ⟨hsel, ?_, hjoin, ?_⟩
  · intro df cols out h hnd
    rw [hsel df cols out h]
    exact hnd
  · intro l r onCol how out h hnl hnrr hel her
    rw [hjoin l r onCol how out h]
    unfold joinCols
    exact joinCols_fold_nodup r.columns l.columns [] hnl
      (fun x hx => Or.inl (hel x hx))
      (fun c _ => List.not_mem_nil c)
      her hnrr

/-- Claim C9 counterexample: select with the repeated request list
["a", "a"] succeeds and returns a Table whose column names are NOT
pairwise-unique, contradicting "select returns a Table with unique names
for every requested name list". -/
theorem C9_cex :
    DataFrame.select ⟨[[Value.int 1]], ["a"]⟩ ["a", "a"]
      = .ok ⟨[[Value.int 1, Value.int 1]], ["a", "a"]⟩ ∧
    ¬ (["a", "a"] : List String).Nodup := by
  refine ⟨by decide, by decide⟩

theorem C9_uniqueCols_w :
    (DataFrame.mk [[Value.int 2]] ["b"] : DataFrame).columns.Nodup :=
  C9_uniqueCols.2.1 ⟨[[Value.int 1, Value.int 2]], ["a", "b"]⟩ ["b"]
    ⟨[[Value.int 2]], ["b"]⟩ (by decide) (by decide)

/-! ## Claim C3 -/

theorem calcAgg_unknown {values : List Value} {f : String}
    (hne : values ≠ [])
    (hf : f ∉ (["count", "sum", "mean", "avg", "max", "min", "median", "std"] : List String)) :
    calcAgg values f = .error (.valueError ("Unknown aggregation function: " ++ f)) := by
  simp only [List.mem_cons, List.mem_singleton, not_or] at hf
  obtain ⟨h1, h2, h3, h4, h5, h6, h7, h8, -⟩ := hf
  unfold calcAgg
  rw [if_neg hne, if_neg h1, if_neg h2, if_neg h3, if_neg h4, if_neg h5, if_neg h6,
    if_neg h7, if_neg h8]

theorem calcAgg_emptyVals (f : String) : calcAgg [] f = .ok .null := by
  unfold calcAgg
  rw [if_pos rfl]

theorem aggRowTail_unknown {cols : List String} {rows : List Row} {c f : String}
    (hc : cols.contains c = true)
    (hvals : nonNullVals (colIndex cols c) rows ≠ [])
    (hf : f ∉ (["count", "sum", "mean", "avg", "max", "min", "median", "std"] : List String)) :
    aggRowTail cols rows [(c, [f])]
      = .error (.valueError ("Unknown aggregation function: " ++ f)) := by
  unfold aggRowTail
  rw [if_neg (by simp only [hc]; simp)]
  show (aggFuncs (nonNullVals (colIndex cols c) rows) [f]).bind _ = _
  unfold aggFuncs
  rw [calcAgg_unknown hvals hf]
  rfl

theorem aggRowTail_emptyVals {cols : List String} {rows : List Row} {c : String}
    (f : String) (hc : cols.contains c = true)
    (hvals : nonNullVals (colIndex cols c) rows = []) :
    aggRowTail cols rows [(c, [f])] = .ok [Value.null] := by
  unfold aggRowTail
  rw [if_neg (by simp only [hc]; simp)]
  show (aggFuncs (nonNullVals (colIndex cols c) rows) [f]).bind _ = _
  unfold aggFuncs
  rw [hvals, calcAgg_emptyVals]
  rfl

theorem aggRows_unknown {cols : List String} {c f : String}
    (gs : List (List Value × List Row))
    (hc : cols.contains c = true)
    (hf : f ∉ (["count", "sum", "mean", "avg", "max", "min", "median", "std"] : List String))
    (hex : ∃ p ∈ gs, nonNullVals (colIndex cols c) p.2 ≠ []) :
    aggRows cols [(c, [f])] gs
      = .error (.valueError ("Unknown aggregation function: " ++ f)) := by
  induction gs with
  | nil =>
    obtain ⟨p, hp, -⟩ := hex
    exact absurd hp (List.not_mem_nil p)
  | cons g rest ih =>
    obtain ⟨k, rows⟩ := g
    by_cases hg : nonNullVals (colIndex cols c) rows = []
    · obtain ⟨p, hp, hpne⟩ := hex
      have hpr : p ∈ rest := by
        rcases List.mem_cons.mp hp with hp | hp
        · subst hp
          exact absurd hg hpne
        · exact hp
      show (aggRowTail cols rows [(c, [f])]).bind _ = _
      rw [aggRowTail_emptyVals f hc hg]
      show (aggRows cols [(c, [f])] rest).bind _ = _
      rw [ih ⟨p, hpr, hpne⟩]
      rfl
    · show (aggRowTail cols rows [(c, [f])]).bind _ = _
      rw [aggRowTail_unknown hc hg hf]
      rfl

/-- Claim C3 (amended): an unsupported function name on an existing column
raises ValueError "Unknown aggregation function: ..." to the caller
whenever at least one group has a non-empty post-null-filter sample; but
`_calculate_agg` returns None for an empty sample BEFORE inspecting the
function name, so a group whose sample is empty silently contributes Null
instead of failing (see the counterexample) — the claim's "for every group,
including groups whose post-null-filter sample is empty" does not hold. -/
theorem C3_unknownAgg (df : DataFrame) (byCols : List String) (g : GroupedDataFrame)
    (c f : String)
    (hg : DataFrame.groupBy df byCols = .ok g)
    (hf : f ∉ (["count", "sum", "mean", "avg", "max", "min", "median", "std"] : List String))
    (hc : df.columns.contains c = true)
    (hex : ∃ p ∈ g.groups, nonNullVals (colIndex df.columns c) p.2 ≠ []) :
    g.agg [(c, [f])] = .error (.valueError ("Unknown aggregation function: " ++ f)) := by
  have hgdf : g.df = df := by
    unfold DataFrame.groupBy at hg
    split at hg
    · exact Except.noConfusion hg
    · cases hg
      rfl
  unfold GroupedDataFrame.agg
  rw [hgdf, aggRows_unknown g.groups hc hf hex]
  rfl

/-- Claim C3 counterexample: grouping the single row (1, Null) by "g" and
aggregating column "a" with the unknown function "bogus" does NOT raise —
the group's post-null-filter sample is empty, so `_calculate_agg` returns
None before the function name is checked, and agg returns a Table with a
Null cell. -/
theorem C3_cex :
    (DataFrame.groupBy ⟨[[Value.int 1, Value.null]], ["g", "a"]⟩ ["g"]).bind
        (fun g => g.agg [("a", ["bogus"])])
      = .ok ⟨[[Value.int 1, Value.null]], ["g", "a_bogus"]⟩ := by
  decide

theorem C3_unknownAgg_w :
    GroupedDataFrame.agg
        ⟨⟨[[Value.int 1, Value.int 2]], ["g", "a"]⟩, ["g"],
          [([Value.int 1], [[Value.int 1, Value.int 2]])]⟩
        [("a", ["bogus"])]
      = .error (.valueError "Unknown aggregation function: bogus") := by
  have h := C3_unknownAgg ⟨[[Value.int 1, Value.int 2]], ["g", "a"]⟩ ["g"]
    ⟨⟨[[Value.int 1, Value.int 2]], ["g", "a"]⟩, ["g"],
      [([Value.int 1], [[Value.int 1, Value.int 2]])]⟩
    "a" "bogus" (by decide) (by decide) (by decide)
    ⟨([Value.int 1], [[Value.int 1, Value.int 2]]), by decide, by decide⟩
  rw [h]
  decide

/-! ## Claim C6 -/

/-- Claim-side description of the inner join output: one combined row per
matching (left, right) pair, in left-then-right iteration order. -/
def innerJoinSpec (ld rd : List Row) (li ri : ℕ) : List Row :=
  ld.flatMap (fun l =>
    (rd.filter (fun r => pyEq (l.getD li Value.null) (r.getD ri Value.null))).map
      (fun r => l ++ r))

/-- Claim-side description of the left join output: one combined row per
matching pair, and for a left row with zero matches exactly one row with
Null in every right-side output position. -/
def leftJoinSpec (ld rd : List Row) (li ri rlen : ℕ) : List Row :=
  ld.flatMap (fun l =>
    if rd.filter (fun r => pyEq (l.getD li Value.null) (r.getD ri Value.null)) = [] then
      [l ++ List.replicate rlen Value.null]
    else
      (rd.filter (fun r => pyEq (l.getD li Value.null) (r.getD ri Value.null))).map
        (fun r => l ++ r))

theorem foldl_filter_map_append {α β : Type} (xs : List α) (p : α → Bool) (f : α → β) :
    ∀ acc, xs.foldl (fun acc2 x => if p x then acc2 ++ [f x] else acc2) acc
      = acc ++ (xs.filter p).map f := by
  induction xs with
  | nil => intro acc; simp
  | cons x xs ih =>
    intro acc
    rw [List.foldl_cons]
    by_cases hx : p x
    · rw [if_pos hx, ih, List.filter_cons_of_pos hx]
      simp
    · rw [if_neg hx, ih, List.filter_cons_of_neg hx]

theorem innerJoinData_eq (ld rd : List Row) (li ri : ℕ) :
    innerJoinData ld rd li ri = innerJoinSpec ld rd li ri := by
  unfold innerJoinData innerJoinSpec
  suffices h : ∀ acc, ld.foldl (fun acc l => rd.foldl (fun acc2 r =>
      if pyEq (l.getD li Value.null) (r.getD ri Value.null) then acc2 ++ [l ++ r]
      else acc2) acc) acc
      = acc ++ ld.flatMap (fun l =>
          (rd.filter (fun r => pyEq (l.getD li Value.null) (r.getD ri Value.null))).map
            (fun r => l ++ r)) by
    simpa using h []
  induction ld with
  | nil => intro acc; simp
  | cons l ld ih =>
    intro acc
    rw [List.foldl_cons, ih, foldl_filter_map_append, List.flatMap_cons, List.append_assoc]

theorem leftScanRow_eq (rd : List Row) (li ri : ℕ) (l : Row) :
    leftScanRow rd li ri l
      = ((rd.filter (fun r => pyEq (l.getD li Value.null) (r.getD ri Value.null))).map
          (fun r => l ++ r),
         rd.any (fun r => pyEq (l.getD li Value.null) (r.getD ri Value.null))) := by
  unfold leftScanRow
  suffices h : ∀ (acc : List Row) (flag : Bool),
      rd.foldl (fun p r =>
        if pyEq (l.getD li Value.null) (r.getD ri Value.null) then (p.1 ++ [l ++ r], true)
        else p) (acc, flag)
      = (acc ++ (rd.filter (fun r => pyEq (l.getD li Value.null) (r.getD ri Value.null))).map
            (fun r => l ++ r),
         flag || rd.any (fun r => pyEq (l.getD li Value.null) (r.getD ri Value.null))) by
    simpa using h [] false
  induction rd with
  | nil => intro acc flag; simp
  | cons r rd ih =>
    intro acc flag
    rw [List.foldl_cons]
    by_cases hx : pyEq (l.getD li Value.null) (r.getD ri Value.null)
    · rw [if_pos hx, ih, List.filter_cons, if_pos hx, List.any_cons, hx]
      simp
    · have hx' : pyEq (l.getD li Value.null) (r.getD ri Value.null) = false := by
        simpa using hx
      rw [if_neg hx, ih, List.filter_cons, if_neg hx, List.any_cons, hx']
      simp

theorem leftJoinData_eq (ld rd : List Row) (li ri rlen : ℕ) :
    leftJoinData ld rd li ri rlen = leftJoinSpec ld rd li ri rlen := by
  unfold leftJoinData leftJoinSpec
  suffices h : ∀ acc, ld.foldl (fun acc l =>
      let p := leftScanRow rd li ri l
      acc ++ p.1 ++ (if p.2 then [] else [l ++ List.replicate rlen Value.null])) acc
      = acc ++ ld.flatMap (fun l =>
          if rd.filter (fun r => pyEq (l.getD li Value.null) (r.getD ri Value.null)) = [] then
            [l ++ List.replicate rlen Value.null]
          else
            (rd.filter (fun r => pyEq (l.getD li Value.null) (r.getD ri Value.null))).map
              (fun r => l ++ r)) by
    simpa using h []
  induction ld with
  | nil => intro acc; simp
  | cons l ld ih =>
    intro acc
    rw [List.foldl_cons]
    show ld.foldl _ (acc ++ (leftScanRow rd li ri l).1 ++ _) = _
    rw [ih, leftScanRow_eq, List.flatMap_cons]
    by_cases hms : rd.filter (fun r => pyEq (l.getD li Value.null) (r.getD ri Value.null)) = []
    · have hany : rd.any (fun r => pyEq (l.getD li Value.null) (r.getD ri Value.null)) = false := by
        rw [List.any_eq_false]
        intro x hx
        intro hpx
        have : x ∈ rd.filter (fun r => pyEq (l.getD li Value.null) (r.getD ri Value.null)) :=
          List.mem_filter.mpr ⟨hx, hpx⟩
        rw [hms] at this
        exact List.not_mem_nil x this
      rw [if_pos hms, hms, hany]
      simp
    · have hany : rd.any (fun r => pyEq (l.getD li Value.null) (r.getD ri Value.null)) = true := by
        rcases List.exists_mem_of_ne_nil _ hms with ⟨x, hx⟩
        have := List.mem_filter.mp hx
        exact List.any_eq_true.mpr ⟨x, this.1, this.2⟩
      rw [if_neg hms, hany]
      simp

theorem leftJoinSpec_length_ge (ld rd : List Row) (li ri rlen : ℕ) :
    ld.length ≤ (leftJoinSpec ld rd li ri rlen).length := by
  unfold leftJoinSpec
  induction ld with
  | nil => simp
  | cons l ld ih =>
    rw [List.flatMap_cons, List.length_append, List.length_cons]
    have h1 : 1 ≤ (if rd.filter (fun r => pyEq (l.getD li Value.null) (r.getD ri Value.null)) = [] then
        [l ++ List.replicate rlen Value.null]
      else
        (rd.filter (fun r => pyEq (l.getD li Value.null) (r.getD ri Value.null))).map
          (fun r => l ++ r)).length := by
      split
      · simp
      · next hms =>
        rw [List.length_map]
        rcases List.exists_mem_of_ne_nil _ hms with ⟨x, hx⟩
        exact List.length_pos.mpr hms
    omega

theorem innerJoinSpec_length_le (ld rd : List Row) (li ri : ℕ) :
    (innerJoinSpec ld rd li ri).length ≤ ld.length * rd.length := by
  unfold innerJoinSpec
  induction ld with
  | nil => simp
  | cons l ld ih =>
    rw [List.flatMap_cons, List.length_append, List.length_cons]
    have h1 : ((rd.filter (fun r => pyEq (l.getD li Value.null) (r.getD ri Value.null))).map
        (fun r => l ++ r)).length ≤ rd.length := by
      rw [List.length_map]
      exact List.length_filter_le _ _
    have h2 : (ld.length + 1) * rd.length = rd.length + ld.length * rd.length := by ring
    omega

theorem joinCols_length (lc rc : List String) :
    (joinCols lc rc).length = lc.length + rc.length := by
  unfold joinCols
  suffices h : ∀ acc : List String, (rc.foldl (fun acc col =>
      if acc.contains col then acc ++ [col ++ "_right"] else acc ++ [col]) acc).length
      = acc.length + rc.length by
    exact h lc
  induction rc with
  | nil => intro acc; simp
  | cons c rc ih =>
    intro acc
    rw [List.foldl_cons]
    by_cases hc : acc.contains c
    · rw [if_pos hc, ih]
      simp
      omega
    · rw [if_neg hc, ih]
      simp
      omega

theorem leftJoinSpec_conform {ld rd : List Row} {li ri : ℕ} {nl nr : ℕ}
    (hl : ∀ x ∈ ld, x.length = nl) (hr : ∀ x ∈ rd, x.length = nr) :
    ∀ row ∈ leftJoinSpec ld rd li ri nr, row.length = nl + nr := by
  intro row hrow
  obtain ⟨l, hlmem, hin⟩ := List.mem_flatMap.mp hrow
  split at hin
  · rcases List.mem_singleton.mp hin with rfl
    simp [hl l hlmem]
  · obtain ⟨r, hrmem, heq⟩ := List.mem_map.mp hin
    subst heq
    have := List.mem_filter.mp hrmem
    simp [hl l hlmem, hr r this.1]

theorem innerJoinSpec_conform {ld rd : List Row} {li ri : ℕ} {nl nr : ℕ}
    (hl : ∀ x ∈ ld, x.length = nl) (hr : ∀ x ∈ rd, x.length = nr) :
    ∀ row ∈ innerJoinSpec ld rd li ri, row.length = nl + nr := by
  intro row hrow
  obtain ⟨l, hlmem, hin⟩ := List.mem_flatMap.mp hrow
  obtain ⟨r, hrmem, heq⟩ := List.mem_map.mp hin
  subst heq
  have := List.mem_filter.mp hrmem
  simp [hl l hlmem, hr r this.1]

/-- Claim C6 (confirmed): for Tables sharing the join column, the left join
returns exactly one combined row per matching (left, right) pair plus, for
each left row with zero matches, a single row padded with Null across all
right-side output columns (`leftJoinSpec`); hence it has at least |left|
rows.  The inner join returns exactly the matching pairs (`innerJoinSpec`),
hence at most |left| × |right| rows. -/
theorem C6_join (l r : DataFrame) (onCol : String)
    (hl : l.columns.contains onCol = true) (hr : r.columns.contains onCol = true)
    (hcl : rowsConform l = true) (hcr : rowsConform r = true) :
    DataFrame.join l r onCol "left"
        = .ok ⟨leftJoinSpec l.data r.data (colIndex l.columns onCol)
                 (colIndex r.columns onCol) r.columns.length,
               joinCols l.columns r.columns⟩ ∧
    l.data.length ≤ (leftJoinSpec l.data r.data (colIndex l.columns onCol)
        (colIndex r.columns onCol) r.columns.length).length ∧
    DataFrame.join l r onCol "inner"
        = .ok ⟨innerJoinSpec l.data r.data (colIndex l.columns onCol)
                 (colIndex r.columns onCol),
               joinCols l.columns r.columns⟩ ∧
    (innerJoinSpec l.data r.data (colIndex l.columns onCol)
        (colIndex r.columns onCol)).length ≤ l.data.length * r.data.length := by
  have hcl' : ∀ x ∈ l.data, x.length = l.columns.length := by
    intro x hx
    have := List.all_eq_true.mp hcl x hx
    simpa using this
  have hcr' : ∀ x ∈ r.data, x.length = r.columns.length := by
    intro x hx
    have := List.all_eq_true.mp hcr x hx
    simpa using this
  refine ⟨?_, leftJoinSpec_length_ge _ _ _ _ _, ?_, innerJoinSpec_length_le _ _ _ _⟩
  · unfold DataFrame.join
    rw [if_neg (by simp only [hl]; simp), if_neg (by simp only [hr]; simp)]
    dsimp only
    rw [if_neg (by decide), if_pos rfl, leftJoinData_eq]
    have hconf := @leftJoinSpec_conform l.data r.data (colIndex l.columns onCol)
      (colIndex r.columns onCol) _ _ hcl' hcr'
    rw [mkDF_ok_of_conform (fun row hrow => by
      rw [hconf row hrow, joinCols_length])]
  · unfold DataFrame.join
    rw [if_neg (by simp only [hl]; simp), if_neg (by simp only [hr]; simp)]
    dsimp only
    rw [if_pos rfl, innerJoinData_eq]
    have hconf := @innerJoinSpec_conform l.data r.data (colIndex l.columns onCol)
      (colIndex r.columns onCol) _ _ hcl' hcr'
    rw [mkDF_ok_of_conform (fun row hrow => by
      rw [hconf row hrow, joinCols_length])]

theorem C6_join_w :
    DataFrame.join ⟨[[Value.int 1, Value.text "x"]], ["id", "val"]⟩
        ⟨[], ["id", "score"]⟩ "id" "left"
      = .ok ⟨[[Value.int 1, Value.text "x", Value.null, Value.null]],
             ["id", "val", "id_right", "score"]⟩ := by
  have h := (C6_join ⟨[[Value.int 1, Value.text "x"]], ["id", "val"]⟩
    ⟨[], ["id", "score"]⟩ "id" (by decide) (by decide) (by decide) (by decide)).1
  rw [h]
  decide

/-! ## Claim C8 -/

/-- Rejoining the tokenizer's fields with the delimiter (the claim's
"without quoting" rejoin), rendering each field back to text. -/
def rejoinFields (d : Char) (fields : List Value) : List Char :=
  joinSegs d (fields.map (fun v => (renderValue v).data))

theorem parseLineAux_noQuote (delim : Char) :
    ∀ (l : List Char) (fuel : ℕ) (cur : List Char), l.length ≤ fuel →
      (∀ c ∈ l, c ≠ '"') →
      parseLineAux '"' delim fuel l false cur
        = (splitOnCharAux delim l cur).map (fun seg => cleanFieldL seg) := by
  intro l
  induction l with
  | nil =>
    intro fuel cur _ _
    cases fuel with
    | zero => simp [parseLineAux, splitOnCharAux]
    | succ f => simp [parseLineAux, splitOnCharAux]
  | cons c rest ih =>
    intro fuel cur hfuel hq
    cases fuel with
    | zero => simp at hfuel
    | succ f =>
      have hcq : c ≠ '"' := hq c (by simp)
      have hrest : rest.length ≤ f := by
        simp only [List.length_cons] at hfuel
        omega
      have hqr : ∀ x ∈ rest, x ≠ '"' := fun x hx => hq x (by simp [hx])
      simp only [parseLineAux]
      rw [if_neg hcq]
      by_cases hcd : c = delim
      · rw [if_pos ⟨hcd, trivial⟩]
        unfold splitOnCharAux
        rw [if_pos hcd, List.map_cons, ih f [] hrest hqr]
      · rw [if_neg (by intro hand; exact hcd hand.1)]
        unfold splitOnCharAux
        rw [if_neg hcd, ih f (c :: cur) hrest hqr]

theorem parseLine_noQuote (delim : Char) (line : String)
    (hq : ∀ c ∈ line.data, c ≠ '"') (hnb : pyStripL line.data ≠ []) :
    parseLine '"' delim line
      = (splitOnChar delim line.data).map (fun seg => cleanFieldL seg) := by
  unfold parseLine
  rw [if_neg hnb]
  exact parseLineAux_noQuote delim line.data line.data.length [] (le_refl _) hq

theorem splitOnCharAux_ne_nil (d : Char) :
    ∀ (l cur : List Char), splitOnCharAux d l cur ≠ [] := by
  intro l
  induction l with
  | nil => intro cur; simp [splitOnCharAux]
  | cons c rest ih =>
    intro cur h
    unfold splitOnCharAux at h
    split at h
    · exact List.noConfusion h
    · exact ih _ h

theorem joinSegs_splitOnCharAux (d : Char) :
    ∀ (l cur : List Char), joinSegs d (splitOnCharAux d l cur) = cur.reverse ++ l := by
  intro l
  induction l with
  | nil => intro cur; simp [splitOnCharAux, joinSegs]
  | cons c rest ih =>
    intro cur
    unfold splitOnCharAux
    by_cases hcd : c = d
    · subst hcd
      rw [if_pos rfl]
      have hne := splitOnCharAux_ne_nil c rest []
      have hih := ih []
      cases hsp : splitOnCharAux c rest [] with
      | nil => exact absurd hsp hne
      | cons s t =>
        rw [hsp] at hih
        simp only [List.reverse_nil, List.nil_append] at hih
        calc joinSegs c (cur.reverse :: s :: t)
            = cur.reverse ++ c :: joinSegs c (s :: t) := rfl
          _ = cur.reverse ++ c :: rest := by rw [hih]
    · rw [if_neg hcd, ih (c :: cur)]
      simp

/-- Claim C8 (amended): for a non-blank quote-free line each of whose
delimiter-separated segments survives `clean_field` unchanged as Text (no
surrounding whitespace, no encoding-fix patterns, not a null sentinel, not
coercible to a number), tokenizing and rejoining with the same delimiter
reproduces the line.  Without that restriction the round trip fails, because
`parse_line` runs every field through `clean_field` (see counterexample). -/
theorem C8_roundTrip (delim : Char) (line : String)
    (hq : ∀ c ∈ line.data, c ≠ '"')
    (hnb : pyStripL line.data ≠ [])
    (hseg : ∀ seg ∈ splitOnChar delim line.data, cleanFieldL seg = .text ⟨seg⟩) :
    rejoinFields delim (parseLine '"' delim line) = line.data := by
  rw [parseLine_noQuote delim line hq hnb]
  unfold rejoinFields
  rw [List.map_map]
  have hmap : (splitOnChar delim line.data).map
      ((fun v => (renderValue v).data) ∘ (fun seg => cleanFieldL seg))
      = (splitOnChar delim line.data).map id := by
    refine List.map_congr_left ?_
    intro seg hsm
    simp only [Function.comp]
    rw [hseg seg hsm]
    rfl
  rw [hmap, List.map_id]
  have := joinSegs_splitOnCharAux delim line.data []
  simpa using this

/-- Claim C8 counterexample: the unquoted line "a ,b" tokenizes to fields
"a" and "b" (`clean_field` strips the space), so rejoining with ','
produces "a,b", not the original line. -/
theorem C8_cex :
    rejoinFields ',' (parseLine '"' ',' "a ,b") = "a,b".data ∧
    "a,b".data ≠ "a ,b".data := by
  refine ⟨by decide, by decide⟩

theorem C8_roundTrip_w :
    rejoinFields ',' (parseLine '"' ',' "abc,xyz") = "abc,xyz".data :=
  C8_roundTrip ',' "abc,xyz" (by decide) (by decide) (by decide)

/-! ## Claim C10 -/

/-- Claim-side definition: the group keys in order of first occurrence in
the source row order. -/
def firstOccurKeys (ks : List (List Value)) : List (List Value) :=
  ks.foldl (fun acc k => if acc.any (fun k2 => keyTupEq k2 k) then acc else acc ++ [k]) []

theorem pyEq_refl (v : Value) : pyEq v v = true := by
  cases v <;> simp [pyEq]

theorem pyEq_symm (a b : Value) : pyEq a b = pyEq b a := by
  cases a <;> cases b <;> simp [pyEq, eq_comm]

theorem pyEq_trans {a b c : Value} (h1 : pyEq a b = true) (h2 : pyEq b c = true) :
    pyEq a c = true := by
  cases a <;> cases b <;> cases c <;> simp_all [pyEq]

theorem keyTupEq_refl (k : List Value) : keyTupEq k k = true := by
  induction k with
  | nil => rfl
  | cons v t ih => simp [keyTupEq, pyEq_refl, ih]

theorem keyTupEq_symm (a b : List Value) : keyTupEq a b = keyTupEq b a := by
  induction a generalizing b with
  | nil => cases b <;> simp [keyTupEq]
  | cons v t ih =>
    cases b with
    | nil => simp [keyTupEq]
    | cons w u => simp [keyTupEq, pyEq_symm v w, ih u]

theorem keyTupEq_trans {a b c : List Value} (h1 : keyTupEq a b = true)
    (h2 : keyTupEq b c = true) : keyTupEq a c = true := by
  induction a generalizing b c with
  | nil =>
    cases b <;> simp [keyTupEq] at h1
    cases c <;> simp [keyTupEq] at h2 ⊢
  | cons v t ih =>
    cases b with
    | nil => simp [keyTupEq] at h1
    | cons w u =>
      cases c with
      | nil => simp [keyTupEq] at h2
      | cons x s =>
        simp only [keyTupEq, Bool.and_eq_true] at h1 h2 ⊢
        exact ⟨pyEq_trans h1.1 h2.1, ih h1.2 h2.2⟩

theorem addToGroup_map_fst (gs : List (List Value × List Row)) (k : List Value) (r : Row) :
    (addToGroup gs k r).map Prod.fst
      = if gs.any (fun p => keyTupEq p.1 k) then gs.map Prod.fst
        else gs.map Prod.fst ++ [k] := by
  induction gs with
  | nil => simp [addToGroup]
  | cons g rest ih =>
    obtain ⟨k', rs⟩ := g
    by_cases hm : keyTupEq k' k = true
    · rw [addToGroup, if_pos hm]
      simp [List.any_cons, hm]
    · rw [addToGroup, if_neg hm]
      rw [List.map_cons, ih, List.any_cons]
      have hm' : keyTupEq k' k = false := by simpa using hm
      rw [hm']
      by_cases hany : rest.any (fun p => keyTupEq p.1 k) = true
      · simp [hany]
      · have : rest.any (fun p => keyTupEq p.1 k) = false := by simpa using hany
        simp [this]

theorem addToGroup_members {processed : List Row} {key : Row → List Value}
    {gs : List (List Value × List Row)} {r : Row}
    (hpw : List.Pairwise (fun a b => keyTupEq a b = false) (gs.map Prod.fst))
    (hmem : ∀ p ∈ gs, p.2 = processed.filter (fun x => keyTupEq (key x) p.1))
    (hnew : gs.any (fun p => keyTupEq p.1 (key r)) = false →
        processed.filter (fun x => keyTupEq (key x) (key r)) = []) :
    ∀ p ∈ addToGroup gs (key r) r,
      p.2 = (processed ++ [r]).filter (fun x => keyTupEq (key x) p.1) := by
  induction gs with
  | nil =>
    intro p hp
    simp only [addToGroup, List.mem_singleton] at hp
    subst hp
    rw [List.filter_append, hnew (by simp)]
    simp [keyTupEq_refl]
  | cons g rest ih =>
    obtain ⟨k', rs⟩ := g
    rw [List.map_cons, List.pairwise_cons] at hpw
    intro p hp
    by_cases hm : keyTupEq k' (key r) = true
    · rw [addToGroup, if_pos hm] at hp
      rcases List.mem_cons.mp hp with hp | hp
      · subst hp
        rw [List.filter_append]
        have hrs := hmem (k', rs) (by simp)
        dsimp only at hrs
        have hkk : keyTupEq (key r) k' = true := by
          rw [keyTupEq_symm]
          exact hm
        simp only [List.filter_cons, List.filter_nil, hkk, if_true]
        rw [hrs]
      · have hpm := hmem p (by simp [hp])
        have hpk : p.1 ∈ rest.map Prod.fst := List.mem_map_of_mem _ hp
        have hne : keyTupEq k' p.1 = false := hpw.1 p.1 hpk
        have hne2 : keyTupEq (key r) p.1 = false := by
          by_contra hkp
          have hkp' : keyTupEq (key r) p.1 = true := by simpa using hkp
          have : keyTupEq k' p.1 = true := keyTupEq_trans hm hkp'
          rw [this] at hne
          exact Bool.noConfusion hne
        rw [List.filter_append]
        simp only [List.filter_cons, List.filter_nil, hne2]
        simp [hpm]
    · rw [addToGroup, if_neg hm] at hp
      rcases List.mem_cons.mp hp with hp | hp
      · subst hp
        have hrs := hmem (k', rs) (by simp)
        dsimp only at hrs
        have hne2 : keyTupEq (key r) k' = false := by
          rw [keyTupEq_symm]
          simpa using hm
        rw [List.filter_append]
        simp only [List.filter_cons, List.filter_nil, hne2]
        simp [hrs]
      · refine ih hpw.2 (fun q hq => hmem q (by simp [hq])) ?_ p hp
        intro hrest
        refine hnew ?_
        rw [List.any_cons]
        have hm' : keyTupEq k' (key r) = false := by simpa using hm
        rw [hm', hrest]
        rfl

theorem any_fst_eq (gs : List (List Value × List Row)) (k : List Value) :
    gs.any (fun p => keyTupEq p.1 k) = (gs.map Prod.fst).any (fun k2 => keyTupEq k2 k) := by
  induction gs with
  | nil => rfl
  | cons g t ih => simp [List.any_cons, ih]

theorem groups_fold_spec (key : Row → List Value) :
    ∀ (rows processed : List Row) (gs : List (List Value × List Row)),
      List.Pairwise (fun a b => keyTupEq a b = false) (gs.map Prod.fst) →
      gs.map Prod.fst
        = (processed.map key).foldl
            (fun acc k => if acc.any (fun k2 => keyTupEq k2 k) then acc else acc ++ [k]) [] →
      (∀ p ∈ gs, p.2 = processed.filter (fun x => keyTupEq (key x) p.1)) →
      (∀ x ∈ processed, ∃ k' ∈ gs.map Prod.fst, keyTupEq (key x) k' = true) →
      ((rows.foldl (fun gs r => addToGroup gs (key r) r) gs).map Prod.fst
          = ((processed ++ rows).map key).foldl
              (fun acc k => if acc.any (fun k2 => keyTupEq k2 k) then acc else acc ++ [k]) []) ∧
      (∀ p ∈ rows.foldl (fun gs r => addToGroup gs (key r) r) gs,
          p.2 = (processed ++ rows).filter (fun x => keyTupEq (key x) p.1)) := by
  intro rows
  induction rows with
  | nil =>
    intro processed gs hpw h1 h3 h4
    constructor
    · simpa using h1
    · simpa using h3
  | cons r rows ih =>
    intro processed gs hpw h1 h3 h4
    rw [List.foldl_cons]
    have hassoc : processed ++ r :: rows = (processed ++ [r]) ++ rows := by simp
    rw [hassoc]
    have hanyeq := any_fst_eq gs (key r)
    have hfst := addToGroup_map_fst gs (key r) r
    have hnew : gs.any (fun p => keyTupEq p.1 (key r)) = false →
        processed.filter (fun x => keyTupEq (key x) (key r)) = [] := by
      intro hany
      by_contra hne
      rcases List.exists_mem_of_ne_nil _ hne with ⟨x, hx⟩
      have hx' := List.mem_filter.mp hx
      obtain ⟨k', hk'mem, hk'⟩ := h4 x hx'.1
      obtain ⟨p, hpmem, hpk⟩ := List.mem_map.mp hk'mem
      have hkx : keyTupEq k' (key x) = true := by
        rw [keyTupEq_symm]
        exact hk'
      have hkr : keyTupEq p.1 (key r) = true := by
        rw [hpk]
        exact keyTupEq_trans hkx (by simpa using hx'.2)
      have : gs.any (fun p => keyTupEq p.1 (key r)) = true :=
        List.any_eq_true.mpr ⟨p, hpmem, hkr⟩
      rw [hany] at this
      exact Bool.noConfusion this
    refine ih (processed ++ [r]) (addToGroup gs (key r) r) ?_ ?_ ?_ ?_
    · rw [hfst]
      split
      · exact hpw
      · next hany =>
        have hany' : gs.any (fun p => keyTupEq p.1 (key r)) = false := by
          simpa using hany
        rw [List.pairwise_append]
        refine ⟨hpw, List.pairwise_singleton _ _, ?_⟩
        intro a ha b hb
        have hb' : b = key r := List.mem_singleton.mp hb
        subst hb'
        obtain ⟨p, hpmem, hpk⟩ := List.mem_map.mp ha
        have := List.any_eq_false.mp hany' p hpmem
        rw [← hpk]
        simpa using this
    · rw [hfst, List.map_append, List.foldl_append]
      simp only [List.map_cons, List.map_nil, List.foldl_cons, List.foldl_nil]
      rw [← h1, ← hanyeq]
    · exact addToGroup_members hpw h3 hnew
    · intro x hx
      rcases List.mem_append.mp hx with hx | hx
      · obtain ⟨k', hk'mem, hk'⟩ := h4 x hx
        refine ⟨k', ?_, hk'⟩
        rw [hfst]
        split
        · exact hk'mem
        · exact List.mem_append.mpr (Or.inl hk'mem)
      · have hx' : x = r := List.mem_singleton.mp hx
        subst hx'
        rw [hfst]
        by_cases hany : gs.any (fun p => keyTupEq p.1 (key x)) = true
        · rw [if_pos hany]
          obtain ⟨p, hpmem, hpk⟩ := List.any_eq_true.mp hany
          refine ⟨p.1, List.mem_map_of_mem _ hpmem, ?_⟩
          rw [keyTupEq_symm]
          exact hpk
        · rw [if_neg hany]
          exact ⟨key x, by simp, keyTupEq_refl _⟩

theorem groupsOfRows_spec (rows : List Row) (idxs : List ℕ) :
    (groupsOfRows rows idxs).map Prod.fst
        = firstOccurKeys (rows.map (rowKeyTup idxs)) ∧
    ∀ p ∈ groupsOfRows rows idxs,
      p.2 = rows.filter (fun x => keyTupEq (rowKeyTup idxs x) p.1) := by
  have h := groups_fold_spec (rowKeyTup idxs) rows [] []
    (by simp) (by simp) (by simp) (by simp)
  simpa [groupsOfRows, firstOccurKeys] using h

theorem groupsOfRows_key_from (idxs : List ℕ) :
    ∀ (rows : List Row) (gs : List (List Value × List Row)) (p : List Value × List Row),
      p ∈ rows.foldl (fun gs r => addToGroup gs (rowKeyTup idxs r) r) gs →
      p.1 ∈ gs.map Prod.fst ∨ ∃ r ∈ rows, p.1 = rowKeyTup idxs r := by
  intro rows
  induction rows with
  | nil =>
    intro gs p hp
    exact Or.inl (List.mem_map_of_mem _ hp)
  | cons r rows ih =>
    intro gs p hp
    rw [List.foldl_cons] at hp
    rcases ih _ p hp with hin | ⟨r', hr', he⟩
    · rw [addToGroup_map_fst] at hin
      by_cases hany : gs.any (fun q => keyTupEq q.1 (rowKeyTup idxs r)) = true
      · rw [if_pos hany] at hin
        exact Or.inl hin
      · rw [if_neg hany] at hin
        rcases List.mem_append.mp hin with hin | hin
        · exact Or.inl hin
        · exact Or.inr ⟨r, by simp, List.mem_singleton.mp hin⟩
    · exact Or.inr ⟨r', by simp [hr'], he⟩

theorem aggRows_take {cols : List String} {spec : List (String × List String)} {n : ℕ} :
    ∀ (gs : List (List Value × List Row)) (rows : List Row),
      (∀ p ∈ gs, p.1.length = n) →
      aggRows cols spec gs = .ok rows →
      rows.map (List.take n) = gs.map Prod.fst := by
  intro gs
  induction gs with
  | nil =>
    intro rows _ h
    simp only [aggRows] at h
    cases h
    rfl
  | cons g rest ih =>
    obtain ⟨k, rs⟩ := g
    intro rows hlen h
    have hshow : (aggRowTail cols rs spec).bind (fun tail =>
        (aggRows cols spec rest).bind (fun more => Except.ok ((k ++ tail) :: more)))
        = Except.ok rows := h
    cases ht : aggRowTail cols rs spec with
    | error e =>
      rw [ht] at hshow
      exact Except.noConfusion hshow
    | ok tail =>
      rw [ht] at hshow
      cases hm : aggRows cols spec rest with
      | error e =>
        rw [hm] at hshow
        exact Except.noConfusion hshow
      | ok more =>
        rw [hm] at hshow
        simp only [Except.bind] at hshow
        cases hshow
        rw [List.map_cons, List.map_cons]
        have hk : k.length = n := by
          have := hlen (k, rs) (by simp)
          simpa using this
        rw [ih more (fun p hp => hlen p (by simp [hp])) hm]
        rw [← hk, List.take_left]

/-- Claim C10 (confirmed): grouping preserves order — the group keys appear
in order of first occurrence in the source row order, each group's member
rows are exactly the source rows with that key in source order, and the
aggregated result has one row per group in the same group order, its first
|by| cells being the group key. -/
theorem C10_groupOrder (df : DataFrame) (byCols : List String) (g : GroupedDataFrame)
    (hg : DataFrame.groupBy df byCols = .ok g) :
    (g.groups.map Prod.fst
        = firstOccurKeys (df.data.map (rowKeyTup (byCols.map (colIndex df.columns))))) ∧
    (∀ p ∈ g.groups,
        p.2 = df.data.filter (fun r =>
          keyTupEq (rowKeyTup (byCols.map (colIndex df.columns)) r) p.1)) ∧
    (∀ spec out, g.agg spec = .ok out →
        out.data.map (List.take byCols.length) = g.groups.map Prod.fst) := by
  have hginv : g = ⟨df, byCols, groupsOfRows df.data (byCols.map (colIndex df.columns))⟩ := by
    unfold DataFrame.groupBy at hg
    split at hg
    · exact Except.noConfusion hg
    · cases hg
      rfl
  subst hginv
  obtain ⟨hkeys, hmem⟩ := groupsOfRows_spec df.data (byCols.map (colIndex df.columns))
  refine ⟨hkeys, hmem, ?_⟩
  intro spec out hagg
  unfold GroupedDataFrame.agg at hagg
  cases har : aggRows df.columns spec
      (groupsOfRows df.data (byCols.map (colIndex df.columns))) with
  | error e =>
    rw [har] at hagg
    exact Except.noConfusion hagg
  | ok rows =>
    rw [har] at hagg
    simp only [Except.bind] at hagg
    have hdata := (mkDF_ok hagg).1
    rw [hdata]
    have hlen : ∀ p ∈ groupsOfRows df.data (byCols.map (colIndex df.columns)),
        p.1.length = byCols.length := by
      intro p hp
      rcases groupsOfRows_key_from (byCols.map (colIndex df.columns)) df.data [] p hp with
        hin | ⟨r, _, he⟩
      · simp at hin
      · rw [he]
        simp [rowKeyTup]
    exact aggRows_take _ rows hlen har

theorem C10_groupOrder_w :
    ([([Value.text "PC"], [[Value.text "PC"], [Value.text "PC"]]),
      ([Value.text "S"], [[Value.text "S"]])] : List (List Value × List Row)).map Prod.fst
      = firstOccurKeys
          (([[Value.text "PC"], [Value.text "S"], [Value.text "PC"]] : List Row).map
            (rowKeyTup ((["p"] : List String).map (colIndex ["p"])))) :=
  (C10_groupOrder ⟨[[Value.text "PC"], [Value.text "S"], [Value.text "PC"]], ["p"]⟩ ["p"]
    ⟨⟨[[Value.text "PC"], [Value.text "S"], [Value.text "PC"]], ["p"]⟩, ["p"],
      [([Value.text "PC"], [[Value.text "PC"], [Value.text "PC"]]),
       ([Value.text "S"], [[Value.text "S"]])]⟩
    (by decide)).1

/-! ## Claim C7 -/

/-- No backslash immediately before a quote character anywhere in the
line: on such lines the detector's escape-aware quote toggle visits the
same states as the tokenizer's doubled-quote toggle. -/
def noBSQ : List Char → Bool
  | [] => true
  | [_] => true
  | a :: b :: rest => !(a = '\\' ∧ b = '"') && noBSQ (b :: rest)

theorem noBSQ_tail {a : Char} {l : List Char} (h : noBSQ (a :: l) = true) :
    noBSQ l = true := by
  cases l with
  | nil => rfl
  | cons b rest =>
    simp only [noBSQ, Bool.and_eq_true] at h
    exact h.2

theorem noBSQ_head {c : Char} {rest : List Char} (h : noBSQ (c :: rest) = true)
    (hc : c = '\\') : rest.head? ≠ some '"' := by
  cases rest with
  | nil => simp
  | cons b rest2 =>
    simp only [noBSQ, Bool.and_eq_true, Bool.not_eq_true', decide_eq_false_iff_not,
      not_and] at h
    have := h.1 hc
    simp only [List.head?_cons, ne_eq, Option.some.injEq]
    exact this

theorem countDet_eq_countTok (d : Char) :
    ∀ (fuel : ℕ) (l : List Char) (inQ : Bool) (prev : Option Char),
      l.length ≤ fuel →
      noBSQ l = true →
      (prev = some '\\' → l.head? ≠ some '"') →
      countDetAux '"' '\\' d l inQ prev = countTok '"' d fuel l inQ := by
  intro fuel
  induction fuel with
  | zero =>
    intro l inQ prev hlen _ _
    have hnil : l = [] := List.length_eq_zero.mp (Nat.le_zero.mp hlen)
    subst hnil
    rfl
  | succ f ih =>
    intro l inQ prev hlen hbsq hprev
    cases l with
    | nil => rfl
    | cons c rest =>
      have hrlen : rest.length ≤ f := by
        simp only [List.length_cons] at hlen
        omega
      by_cases hcq : c = '"'
      · subst hcq
        have hprev' : ¬ prev = some '\\' := fun hp => hprev hp (by simp)
        have hdet : countDetAux '"' '\\' d ('"' :: rest) inQ prev
            = countDetAux '"' '\\' d rest (!inQ) (some '"') := by
          simp only [countDetAux]
          rw [if_pos ⟨trivial, Or.inr hprev'⟩]
        rw [hdet]
        cases inQ with
        | false =>
          have htok : countTok '"' d (f + 1) ('"' :: rest) false
              = countTok '"' d f rest true := by
            simp [countTok]
          rw [htok]
          exact ih rest true (some '"') hrlen (noBSQ_tail hbsq)
            (fun hp => absurd (Option.some.inj hp) (by decide))
        | true =>
          cases rest with
          | nil =>
            have htok : countTok '"' d (f + 1) ['"'] true = 0 := by
              simp [countTok]
            rw [htok]
            rfl
          | cons c2 rest2 =>
            have hlen2 : rest2.length ≤ f := by
              simp only [List.length_cons] at hrlen
              omega
            by_cases hc2 : c2 = '"'
            · subst hc2
              have htok : countTok '"' d (f + 1) ('"' :: '"' :: rest2) true
                  = countTok '"' d f rest2 true := by
                simp [countTok]
              rw [htok]
              have hdet2 : countDetAux '"' '\\' d ('"' :: rest2) (!true) (some '"')
                  = countDetAux '"' '\\' d rest2 true (some '"') := by
                simp only [countDetAux]
                rw [if_pos ⟨trivial, Or.inr (by decide)⟩]
                rfl
              rw [hdet2]
              exact ih rest2 true (some '"') hlen2 (noBSQ_tail (noBSQ_tail hbsq))
                (fun hp => absurd (Option.some.inj hp) (by decide))
            · have htok : countTok '"' d (f + 1) ('"' :: c2 :: rest2) true
                  = countTok '"' d f (c2 :: rest2) false := by
                simp [countTok, hc2]
              rw [htok]
              exact ih (c2 :: rest2) false (some '"') hrlen (noBSQ_tail hbsq)
                (fun hp => absurd (Option.some.inj hp) (by decide))
      · have hprevc : some c = some '\\' → rest.head? ≠ some '"' := by
          intro hp
          exact noBSQ_head hbsq (Option.some.inj hp)
        have hdet : countDetAux '"' '\\' d (c :: rest) inQ prev
            = if c = d ∧ inQ = false then 1 + countDetAux '"' '\\' d rest inQ (some c)
              else countDetAux '"' '\\' d rest inQ (some c) := by
          simp only [countDetAux]
          rw [if_neg (fun hand => hcq hand.1)]
        have htok : countTok '"' d (f + 1) (c :: rest) inQ
            = if c = d ∧ inQ = false then 1 + countTok '"' d f rest inQ
              else countTok '"' d f rest inQ := by
          simp only [countTok]
          rw [if_neg hcq]
        rw [hdet, htok]
        by_cases hdd : c = d ∧ inQ = false
        · rw [if_pos hdd, if_pos hdd,
            ih rest inQ (some c) hrlen (noBSQ_tail hbsq) hprevc]
        · rw [if_neg hdd, if_neg hdd,
            ih rest inQ (some c) hrlen (noBSQ_tail hbsq) hprevc]

/-- Claim C7 (amended): the detector picks, among {comma, semicolon, tab,
pipe}, the first candidate (in declaration order) attaining the maximal
out-of-quote occurrence count — but its quote-toggle treats a quote as
toggling only when not immediately preceded by the parser's escape
character (backslash), which is NOT the tokenizer's doubled-quote rule.
The two toggles agree (hence the counts agree) exactly on lines with no
backslash immediately before a quote; the counterexample separates them. -/
theorem C7_detect (line : List Char) :
    ((detectDelimiter '"' '\\' line = ',' ∧
        countDet '"' '\\' ';' line ≤ countDet '"' '\\' ',' line ∧
        countDet '"' '\\' '\t' line ≤ countDet '"' '\\' ',' line ∧
        countDet '"' '\\' '|' line ≤ countDet '"' '\\' ',' line) ∨
     (detectDelimiter '"' '\\' line = ';' ∧
        countDet '"' '\\' ',' line < countDet '"' '\\' ';' line ∧
        countDet '"' '\\' '\t' line ≤ countDet '"' '\\' ';' line ∧
        countDet '"' '\\' '|' line ≤ countDet '"' '\\' ';' line) ∨
     (detectDelimiter '"' '\\' line = '\t' ∧
        countDet '"' '\\' ',' line < countDet '"' '\\' '\t' line ∧
        countDet '"' '\\' ';' line < countDet '"' '\\' '\t' line ∧
        countDet '"' '\\' '|' line ≤ countDet '"' '\\' '\t' line) ∨
     (detectDelimiter '"' '\\' line = '|' ∧
        countDet '"' '\\' ',' line < countDet '"' '\\' '|' line ∧
        countDet '"' '\\' ';' line < countDet '"' '\\' '|' line ∧
        countDet '"' '\\' '\t' line < countDet '"' '\\' '|' line)) ∧
    (noBSQ line = true →
        ∀ d, countDet '"' '\\' d line = countTok '"' d line.length line false) := by
  constructor
  · simp only [detectDelimiter, List.foldl_cons, List.foldl_nil]
    by_cases h1 : countDet '"' '\\' ';' line > countDet '"' '\\' ',' line
    · rw [if_pos h1]
      by_cases h2 : countDet '"' '\\' '\t' line > countDet '"' '\\' ';' line
      · rw [if_pos h2]
        by_cases h3 : countDet '"' '\\' '|' line > countDet '"' '\\' '\t' line
        · rw [if_pos h3]
          exact Or.inr (Or.inr (Or.inr ⟨rfl, by omega, by omega, by omega⟩))
        · rw [if_neg h3]
          exact Or.inr (Or.inr (Or.inl ⟨rfl, by omega, by omega, by omega⟩))
      · rw [if_neg h2]
        by_cases h3 : countDet '"' '\\' '|' line > countDet '"' '\\' ';' line
        · rw [if_pos h3]
          exact Or.inr (Or.inr (Or.inr ⟨rfl, by omega, by omega, by omega⟩))
        · rw [if_neg h3]
          exact Or.inr (Or.inl ⟨rfl, by omega, by omega, by omega⟩)
    · rw [if_neg h1]
      by_cases h2 : countDet '"' '\\' '\t' line > countDet '"' '\\' ',' line
      · rw [if_pos h2]
        by_cases h3 : countDet '"' '\\' '|' line > countDet '"' '\\' '\t' line
        · rw [if_pos h3]
          exact Or.inr (Or.inr (Or.inr ⟨rfl, by omega, by omega, by omega⟩))
        · rw [if_neg h3]
          exact Or.inr (Or.inr (Or.inl ⟨rfl, by omega, by omega, by omega⟩))
      · rw [if_neg h2]
        by_cases h3 : countDet '"' '\\' '|' line > countDet '"' '\\' ',' line
        · rw [if_pos h3]
          exact Or.inr (Or.inr (Or.inr ⟨rfl, by omega, by omega, by omega⟩))
        · rw [if_neg h3]
          exact Or.inl ⟨rfl, by omega, by omega, by omega⟩
  · intro hbsq d
    exact countDet_eq_countTok d line.length line false none (le_refl _) hbsq (by simp)

/-- Claim C7 counterexample: on the sample line `\";;,` the detector's
escape-aware toggle never enters quotes (the quote is preceded by a
backslash), so it counts two semicolons and returns ';'; with the
tokenizer's quote-toggle state (the claim's reading) every delimiter is
inside quotes, all counts are zero and the declaration-order tie-break
would return ','. -/
theorem C7_cex :
    detectDelimiter '"' '\\' "\\\";;,".data = ';' ∧
    specDetectDelimiter '"' "\\\";;,".data = ',' := by
  refine ⟨by decide, by decide⟩

theorem C7_detect_w :
    countDet '"' '\\' ',' "a,b".data = countTok '"' ',' "a,b".data.length "a,b".data false :=
  (C7_detect "a,b".data).2 (by decide) ','

/-! ## Claim C5 -/

theorem containsSub_middle {pat : List Char} (x y : List Char) (hpat : pat ≠ []) :
    containsSub pat (x ++ pat ++ y) = true := by
  induction x with
  | nil =>
    cases pat with
    | nil => exact absurd rfl hpat
    | cons c t =>
      show containsSub (c :: t) (c :: (t ++ y)) = true
      unfold containsSub
      rw [Bool.or_eq_true]
      exact Or.inl (isPrefixL_append (c :: t) y)
  | cons x0 xs ih =>
    show containsSub pat (x0 :: (xs ++ pat ++ y)) = true
    unfold containsSub
    rw [Bool.or_eq_true]
    exact Or.inr ih

theorem containsAnd_concat (P Q : List Char) :
    containsAnd (P ++ " and ".data ++ Q) = true := by
  unfold containsAnd
  unfold toLowerL
  rw [List.map_append, List.map_append]
  have hmid : " and ".data.map Char.toLower = " and ".data := by decide
  rw [hmid]
  exact containsSub_middle _ _ (by decide)

theorem evalCondition_concat {P Q : List Char} (d : List (String × Value))
    (hP : pyStripL P = P) (hQ : pyStripL Q = Q)
    (hsplit : splitAnd (P ++ " and ".data ++ Q) = splitAnd P ++ splitAnd Q)
    (hP1 : containsAnd P = false → splitAnd P = [P])
    (hQ1 : containsAnd Q = false → splitAnd Q = [Q]) :
    evalCondition (P ++ " and ".data ++ Q) d
      = (evalCondition P d && evalCondition Q d) := by
  have hside : ∀ (R : List Char), pyStripL R = R →
      (containsAnd R = false → splitAnd R = [R]) →
      (splitAnd R).all (fun p => evalOrLevel (pyStripL p) d) = evalCondition R d := by
    intro R hR hR1
    by_cases hA : containsAnd R = true
    · rw [evalCondition, if_pos hA]
    · have hA' : containsAnd R = false := by simpa using hA
      rw [hR1 hA', List.all_cons, List.all_nil, Bool.and_true, hR,
        evalCondition, if_neg (by simp [hA'])]
  rw [evalCondition, if_pos (containsAnd_concat P Q), hsplit, List.all_append,
    hside P hP hP1, hside Q hQ hQ1]

/-- Claim C5 (amended): `filter(P).filter(Q)` equals `filter("P and Q")`
provided the connector-level structure is compositional: P and Q are
already stripped, splitting the concatenation on the `and` connector yields
the concatenation of the splits, and a predicate with no ` and ` substring
is a single part of its own split.  These hypotheses hold for ordinary
predicates but fail when an operand itself contains the `and` keyword
(e.g. the text literal `and` — see the counterexample). -/
theorem C5_filterCompose (df : DataFrame) (P Q : String)
    (hconf : rowsConform df = true)
    (hP : pyStripL P.data = P.data) (hQ : pyStripL Q.data = Q.data)
    (hsplit : splitAnd (P.data ++ " and ".data ++ Q.data)
        = splitAnd P.data ++ splitAnd Q.data)
    (hP1 : containsAnd P.data = false → splitAnd P.data = [P.data])
    (hQ1 : containsAnd Q.data = false → splitAnd Q.data = [Q.data]) :
    DataFrame.filterStr df (P ++ " and " ++ Q)
      = (DataFrame.filterStr df P).bind (fun d1 => DataFrame.filterStr d1 Q) := by
  have hdata : (P ++ " and " ++ Q).data = P.data ++ " and ".data ++ Q.data := by
    rw [String.data_append, String.data_append]
  have hc : ∀ rows' : List Row, (∀ x ∈ rows', x ∈ df.data) →
      mkDF rows' df.columns = .ok ⟨rows', df.columns⟩ := by
    intro rows' hsub
    apply mkDF_ok_of_conform
    intro r hr
    have := List.all_eq_true.mp hconf r (hsub r hr)
    simpa using this
  have hdd : (df.data.filter (fun r => evalCondition P.data (rowDict df.columns r))).filter
        (fun r => evalCondition Q.data (rowDict df.columns r))
      = df.data.filter (fun r => evalCondition P.data (rowDict df.columns r)
          && evalCondition Q.data (rowDict df.columns r)) := by
    rw [List.filter_filter]
    exact List.filter_congr (fun r _ => by rw [Bool.and_comm])
  have hfJ : DataFrame.filterStr df (P ++ " and " ++ Q)
      = .ok ⟨df.data.filter (fun r => evalCondition P.data (rowDict df.columns r)
          && evalCondition Q.data (rowDict df.columns r)), df.columns⟩ := by
    unfold DataFrame.filterStr
    rw [hdata]
    rw [show df.data.filter (fun r =>
          evalCondition (P.data ++ " and ".data ++ Q.data) (rowDict df.columns r))
        = df.data.filter (fun r => evalCondition P.data (rowDict df.columns r)
            && evalCondition Q.data (rowDict df.columns r)) from
      List.filter_congr (fun r _ => evalCondition_concat _ hP hQ hsplit hP1 hQ1)]
    exact hc _ (fun x hx => (List.mem_filter.mp hx).1)
  have hfP : DataFrame.filterStr df P
      = .ok ⟨df.data.filter (fun r => evalCondition P.data (rowDict df.columns r)),
             df.columns⟩ :=
    hc _ (fun x hx => (List.mem_filter.mp hx).1)
  rw [hfJ, hfP]
  show Except.ok _
      = DataFrame.filterStr
          ⟨df.data.filter (fun r => evalCondition P.data (rowDict df.columns r)),
           df.columns⟩ Q
  unfold DataFrame.filterStr
  rw [show (⟨df.data.filter (fun r => evalCondition P.data (rowDict df.columns r)),
      df.columns⟩ : DataFrame).data.filter
        (fun r => evalCondition Q.data (rowDict df.columns r))
      = df.data.filter (fun r => evalCondition P.data (rowDict df.columns r)
          && evalCondition Q.data (rowDict df.columns r)) from hdd]
  rw [hc _ (fun x hx => (List.mem_filter.mp hx).1)]

/-- Claim C5 counterexample: with the single-comparison predicate
`x == and` (right operand is the text literal `and`), filtering twice keeps
the row whose cell is Text "and", but the combined string
`x == and and x == and` splits on the connector into the parts `x ==` and
`and x == and`, the first of which compares against the empty literal and
rejects every row — so the results differ. -/
theorem C5_cex :
    (DataFrame.filterStr ⟨[[Value.text "and"]], ["x"]⟩ "x == and").bind
        (fun d1 => DataFrame.filterStr d1 "x == and")
      = .ok ⟨[[Value.text "and"]], ["x"]⟩ ∧
    DataFrame.filterStr ⟨[[Value.text "and"]], ["x"]⟩ "x == and and x == and"
      = .ok ⟨[], ["x"]⟩ := by
  refine ⟨by decide, by decide⟩

theorem C5_filterCompose_w :
    DataFrame.filterStr ⟨[[Value.int 1, Value.int 2], [Value.int 1, Value.int 3]], ["x", "y"]⟩
        ("x == 1" ++ " and " ++ "y == 2")
      = (DataFrame.filterStr ⟨[[Value.int 1, Value.int 2], [Value.int 1, Value.int 3]],
            ["x", "y"]⟩ "x == 1").bind
          (fun d1 => DataFrame.filterStr d1 "y == 2") :=
  C5_filterCompose ⟨[[Value.int 1, Value.int 2], [Value.int 1, Value.int 3]], ["x", "y"]⟩
    "x == 1" "y == 2" (by decide) (by decide) (by decide) (by decide)
    (by intro h; decide) (by intro h; decide)

/-! ## Claim C2 : order theory of the sort key `(is_none, value)` -/

theorem cmpRat_swap (x y : ℚ) : cmpRat y x = (cmpRat x y).swap := by
  unfold cmpRat
  split_ifs with h1 h2
  · exact absurd h2 (lt_asymm h1)
  · rfl
  · rfl
  · rfl

theorem cmpRat_not_gt (x y : ℚ) : cmpRat x y ≠ .gt ↔ x ≤ y := by
  unfold cmpRat
  split_ifs with h1 h2
  · simp [h1.le]
  · simp [not_le.mpr h2]
  · simp [le_of_not_lt h2]

theorem cmpRat_eq_iff (x y : ℚ) : cmpRat x y = .eq ↔ x = y := by
  unfold cmpRat
  split_ifs with h1 h2
  · simp [ne_of_lt h1]
  · simp [ne_of_gt h2]
  · simp [le_antisymm (le_of_not_lt h2) (le_of_not_lt h1)]

theorem cmpInt_eq_cmpRat (a b : ℤ) : cmpInt a b = cmpRat (a : ℚ) (b : ℚ) := by
  unfold cmpInt cmpRat
  by_cases h1 : a < b
  · rw [if_pos h1, if_pos (Int.cast_lt.mpr h1)]
  · rw [if_neg h1, if_neg (fun hc => h1 (Int.cast_lt.mp hc))]
    by_cases h2 : b < a
    · rw [if_pos h2, if_pos (Int.cast_lt.mpr h2)]
    · rw [if_neg h2, if_neg (fun hc => h2 (Int.cast_lt.mp hc))]

theorem cmpCharList_eq_iff : ∀ x y : List Char, cmpCharList x y = .eq ↔ x = y
  | [], [] => by simp [cmpCharList]
  | [], _ :: _ => by simp [cmpCharList]
  | _ :: _, [] => by simp [cmpCharList]
  | a :: xs, b :: ys => by
    unfold cmpCharList
    split_ifs with h1 h2
    · simp [ne_of_lt h1]
    · simp [ne_of_gt h2]
    · rw [cmpCharList_eq_iff xs ys]
      have hab : a = b := le_antisymm (le_of_not_lt h2) (le_of_not_lt h1)
      simp [hab]

theorem cmpCharList_swap : ∀ x y : List Char, cmpCharList y x = (cmpCharList x y).swap
  | [], [] => rfl
  | [], _ :: _ => rfl
  | _ :: _, [] => rfl
  | a :: xs, b :: ys => by
    unfold cmpCharList
    split_ifs with h1 h2
    · exact absurd h2 (lt_asymm h1)
    · rfl
    · rfl
    · exact cmpCharList_swap xs ys

theorem cmpCharList_not_gt_trans : ∀ x y z : List Char,
    cmpCharList x y ≠ .gt → cmpCharList y z ≠ .gt → cmpCharList x z ≠ .gt
  | [], _, [] => fun _ _ => by simp [cmpCharList]
  | [], _, _ :: _ => fun _ _ => by simp [cmpCharList]
  | _ :: _, [], _ => fun h1 _ => absurd rfl h1
  | _ :: _, _ :: _, [] => fun _ h2 => absurd rfl h2
  | a :: xs, b :: ys, c :: zs => fun h1 h2 => by
    unfold cmpCharList at h1 h2 ⊢
    by_cases hab : a < b
    · by_cases hbc : b < c
      · rw [if_pos (lt_trans hab hbc)]
        simp
      · by_cases hcb : c < b
        · rw [if_neg hbc, if_pos hcb] at h2
          exact absurd rfl h2
        · have hbc' : b = c := le_antisymm (le_of_not_lt hcb) (le_of_not_lt hbc)
          rw [if_pos (lt_of_lt_of_le hab (le_of_eq hbc'))]
          simp
    · by_cases hba : b < a
      · rw [if_neg hab, if_pos hba] at h1
        exact absurd rfl h1
      · have hab' : a = b := le_antisymm (le_of_not_lt hba) (le_of_not_lt hab)
        by_cases hbc : b < c
        · rw [if_pos (lt_of_le_of_lt (le_of_eq hab') hbc)]
          simp
        · by_cases hcb : c < b
          · rw [if_neg hbc, if_pos hcb] at h2
            exact absurd rfl h2
          · have hbc' : b = c := le_antisymm (le_of_not_lt hcb) (le_of_not_lt hbc)
            rw [if_neg hab, if_neg hba] at h1
            rw [if_neg hbc, if_neg hcb] at h2
            have hac1 : ¬ a < c := by
              rw [hab', hbc']
              exact lt_irrefl c
            have hac2 : ¬ c < a := by
              rw [hab', hbc']
              exact lt_irrefl c
            rw [if_neg hac1, if_neg hac2]
            exact cmpCharList_not_gt_trans xs ys zs h1 h2

theorem valCmpOrd_num : ∀ {u v : Value} {x y : ℚ}, toQ u = some x → toQ v = some y →
    valCmpOrd u v = some (cmpRat x y) := by
  intro u v x y hu hv
  cases u with
  | int a =>
    cases v with
    | int b =>
      rw [← Option.some.inj hu, ← Option.some.inj hv]
      simp [valCmpOrd, cmpInt_eq_cmpRat]
    | float b =>
      rw [← Option.some.inj hu, ← Option.some.inj hv]
      simp [valCmpOrd]
    | null => exact Option.noConfusion hv
    | text s => exact Option.noConfusion hv
  | float a =>
    cases v with
    | int b =>
      rw [← Option.some.inj hu, ← Option.some.inj hv]
      simp [valCmpOrd]
    | float b =>
      rw [← Option.some.inj hu, ← Option.some.inj hv]
      simp [valCmpOrd]
    | null => exact Option.noConfusion hv
    | text s => exact Option.noConfusion hv
  | null => exact Option.noConfusion hu
  | text s => exact Option.noConfusion hu

theorem valCmpOrd_shape {u v : Value} {o : Ordering} (h : valCmpOrd u v = some o) :
    ((toQ u).isSome = true ∧ (toQ v).isSome = true) ∨
      (∃ s t, u = .text s ∧ v = .text t) := by
  cases u with
  | null => exact Option.noConfusion h
  | int a =>
    cases v with
    | null => exact Option.noConfusion h
    | int b => exact Or.inl ⟨rfl, rfl⟩
    | float b => exact Or.inl ⟨rfl, rfl⟩
    | text t => exact Option.noConfusion h
  | float a =>
    cases v with
    | null => exact Option.noConfusion h
    | int b => exact Or.inl ⟨rfl, rfl⟩
    | float b => exact Or.inl ⟨rfl, rfl⟩
    | text t => exact Option.noConfusion h
  | text s =>
    cases v with
    | null => exact Option.noConfusion h
    | int b => exact Option.noConfusion h
    | float b => exact Option.noConfusion h
    | text t => exact Or.inr ⟨s, t, rfl, rfl⟩

theorem valCmpOrd_swap {u v : Value} {o : Ordering} (h : valCmpOrd u v = some o) :
    valCmpOrd v u = some o.swap := by
  rcases valCmpOrd_shape h with ⟨hqu, hqv⟩ | ⟨s, t, rfl, rfl⟩
  · obtain ⟨x, hx⟩ := Option.isSome_iff_exists.mp hqu
    obtain ⟨y, hy⟩ := Option.isSome_iff_exists.mp hqv
    rw [valCmpOrd_num hx hy] at h
    rw [valCmpOrd_num hy hx, Option.some.injEq, ← Option.some.inj h]
    exact cmpRat_swap x y
  · simp only [valCmpOrd, Option.some.injEq] at h ⊢
    rw [← h]
    exact cmpCharList_swap s.data t.data

theorem valCmpOrd_not_gt_trans {u v w : Value} {o1 o2 o3 : Ordering}
    (h1 : valCmpOrd u v = some o1) (hg1 : o1 ≠ .gt)
    (h2 : valCmpOrd v w = some o2) (hg2 : o2 ≠ .gt)
    (h3 : valCmpOrd u w = some o3) : o3 ≠ .gt := by
  rcases valCmpOrd_shape h1 with ⟨hqu, hqv⟩ | ⟨s, t, rfl, rfl⟩
  · rcases valCmpOrd_shape h2 with ⟨_, hqw⟩ | ⟨s2, t2, hv, hw⟩
    · obtain ⟨x, hx⟩ := Option.isSome_iff_exists.mp hqu
      obtain ⟨y, hy⟩ := Option.isSome_iff_exists.mp hqv
      obtain ⟨z, hz⟩ := Option.isSome_iff_exists.mp hqw
      rw [valCmpOrd_num hx hy] at h1
      rw [valCmpOrd_num hy hz] at h2
      rw [valCmpOrd_num hx hz] at h3
      have e1 := Option.some.inj h1
      have e2 := Option.some.inj h2
      have e3 := Option.some.inj h3
      subst e1
      subst e2
      subst e3
      rw [cmpRat_not_gt] at hg1 hg2 ⊢
      exact le_trans hg1 hg2
    · rw [hv] at hqv
      simp [toQ] at hqv
  · rcases valCmpOrd_shape h2 with ⟨hqv, _⟩ | ⟨s2, t2, hv, hw⟩
    · simp [toQ] at hqv
    · subst hw
      simp only [valCmpOrd, Option.some.injEq] at h1 h2 h3
      subst h1
      subst h2
      subst h3
      exact cmpCharList_not_gt_trans _ _ _ hg1 hg2

theorem valCmpOrd_eq_trans {u v w : Value}
    (h1 : valCmpOrd u v = some .eq) (h2 : valCmpOrd v w = some .eq) :
    valCmpOrd u w = some .eq := by
  rcases valCmpOrd_shape h1 with ⟨hqu, hqv⟩ | ⟨s, t, rfl, rfl⟩
  · rcases valCmpOrd_shape h2 with ⟨_, hqw⟩ | ⟨s2, t2, hv, hw⟩
    · obtain ⟨x, hx⟩ := Option.isSome_iff_exists.mp hqu
      obtain ⟨y, hy⟩ := Option.isSome_iff_exists.mp hqv
      obtain ⟨z, hz⟩ := Option.isSome_iff_exists.mp hqw
      rw [valCmpOrd_num hx hy] at h1
      rw [valCmpOrd_num hy hz] at h2
      rw [valCmpOrd_num hx hz, Option.some.injEq, cmpRat_eq_iff]
      have e1 := (cmpRat_eq_iff x y).mp (Option.some.inj h1)
      have e2 := (cmpRat_eq_iff y z).mp (Option.some.inj h2)
      exact e1.trans e2
    · rw [hv] at hqv
      simp [toQ] at hqv
  · rcases valCmpOrd_shape h2 with ⟨hqv, _⟩ | ⟨s2, t2, hv, hw⟩
    · simp [toQ] at hqv
    · subst hw
      simp only [valCmpOrd, Option.some.injEq] at h1 h2 ⊢
      rw [cmpCharList_eq_iff] at h1 h2
      rw [cmpCharList_eq_iff]
      exact h1.trans h2

theorem keyCmp_swap {a b : Bool × Value} {o : Ordering} (h : keyCmp a b = some o) :
    keyCmp b a = some o.swap := by
  obtain ⟨af, av⟩ := a
  obtain ⟨bf, bv⟩ := b
  cases af with
  | false =>
    cases bf with
    | false => exact valCmpOrd_swap h
    | true =>
      rw [← Option.some.inj h]
      rfl
  | true =>
    cases bf with
    | false =>
      rw [← Option.some.inj h]
      rfl
    | true =>
      rw [← Option.some.inj h]
      rfl

theorem keyCmp_eq_symm {a b : Bool × Value} (h : keyCmp a b = some .eq) :
    keyCmp b a = some .eq := keyCmp_swap h

theorem keyCmp_not_gt_trans {a b c : Bool × Value} {o1 o2 o3 : Ordering}
    (h1 : keyCmp a b = some o1) (hg1 : o1 ≠ .gt)
    (h2 : keyCmp b c = some o2) (hg2 : o2 ≠ .gt)
    (h3 : keyCmp a c = some o3) : o3 ≠ .gt := by
  obtain ⟨af, av⟩ := a
  obtain ⟨bf, bv⟩ := b
  obtain ⟨cf, cv⟩ := c
  cases af <;> cases bf <;> cases cf
  · exact valCmpOrd_not_gt_trans h1 hg1 h2 hg2 h3
  · exact fun hgt => Ordering.noConfusion (hgt ▸ Option.some.inj h3)
  · exact absurd (Option.some.inj h2).symm hg2
  · exact fun hgt => Ordering.noConfusion (hgt ▸ Option.some.inj h3)
  · exact absurd (Option.some.inj h1).symm hg1
  · exact absurd (Option.some.inj h1).symm hg1
  · exact absurd (Option.some.inj h2).symm hg2
  · exact fun hgt => Ordering.noConfusion (hgt ▸ Option.some.inj h3)

theorem keyCmp_eq_trans {a b c : Bool × Value}
    (h1 : keyCmp a b = some .eq) (h2 : keyCmp b c = some .eq) :
    keyCmp a c = some .eq := by
  obtain ⟨af, av⟩ := a
  obtain ⟨bf, bv⟩ := b
  obtain ⟨cf, cv⟩ := c
  cases af <;> cases bf <;> cases cf
  · exact valCmpOrd_eq_trans h1 h2
  · exact absurd (Option.some.inj h2) (by decide)
  · exact absurd (Option.some.inj h2) (by decide)
  · exact absurd (Option.some.inj h1) (by decide)
  · exact absurd (Option.some.inj h1) (by decide)
  · exact absurd (Option.some.inj h1) (by decide)
  · exact absurd (Option.some.inj h2) (by decide)
  · rfl

theorem keyLeB_true_elim {a b : Bool × Value} (h : keyLeB true a b = true) :
    ∃ o, keyCmp a b = some o ∧ o ≠ Ordering.gt := by
  unfold keyLeB at h
  rw [if_pos rfl] at h
  cases ho : keyCmp a b with
  | none =>
    rw [ho] at h
    exact Bool.noConfusion h
  | some o =>
    rw [ho] at h
    cases o with
    | lt => exact ⟨Ordering.lt, rfl, by decide⟩
    | eq => exact ⟨Ordering.eq, rfl, by decide⟩
    | gt => exact Bool.noConfusion h

theorem keyLeB_true_intro {a b : Bool × Value} {o : Ordering} (ho : keyCmp a b = some o)
    (hg : o ≠ Ordering.gt) : keyLeB true a b = true := by
  unfold keyLeB
  rw [if_pos rfl, ho]
  cases o with
  | lt => rfl
  | eq => rfl
  | gt => exact absurd rfl hg

theorem keyLeB_of_eq (asc : Bool) {a b : Bool × Value} (h : keyCmp a b = some .eq) :
    keyLeB asc a b = true := by
  cases asc with
  | true => exact keyLeB_true_intro h (by decide)
  | false => exact keyLeB_true_intro (keyCmp_eq_symm h) (by decide)

theorem keyLeB_total (asc : Bool) {a b : Bool × Value} (h : (keyCmp a b).isSome = true) :
    keyLeB asc a b = true ∨ keyLeB asc b a = true := by
  obtain ⟨o, ho⟩ := Option.isSome_iff_exists.mp h
  have ho' := keyCmp_swap ho
  cases asc with
  | true =>
    cases o with
    | lt => exact Or.inl (keyLeB_true_intro ho (by decide))
    | eq => exact Or.inl (keyLeB_true_intro ho (by decide))
    | gt => exact Or.inr (keyLeB_true_intro ho' (by decide))
  | false =>
    cases o with
    | lt => exact Or.inr (keyLeB_true_intro ho (by decide))
    | eq => exact Or.inl (keyLeB_true_intro ho' (by decide))
    | gt => exact Or.inl (keyLeB_true_intro ho' (by decide))

theorem keyLeB_trans (asc : Bool) {a b c : Bool × Value}
    (hac : (keyCmp a c).isSome = true)
    (h1 : keyLeB asc a b = true) (h2 : keyLeB asc b c = true) :
    keyLeB asc a c = true := by
  cases asc with
  | true =>
    obtain ⟨o1, ho1, hg1⟩ := keyLeB_true_elim h1
    obtain ⟨o2, ho2, hg2⟩ := keyLeB_true_elim h2
    obtain ⟨o3, ho3⟩ := Option.isSome_iff_exists.mp hac
    exact keyLeB_true_intro ho3 (keyCmp_not_gt_trans ho1 hg1 ho2 hg2 ho3)
  | false =>
    have h1' : keyLeB true b a = true := h1
    have h2' : keyLeB true c b = true := h2
    obtain ⟨o1, ho1, hg1⟩ := keyLeB_true_elim h2'
    obtain ⟨o2, ho2, hg2⟩ := keyLeB_true_elim h1'
    have hca : (keyCmp c a).isSome = true := by
      obtain ⟨o, ho⟩ := Option.isSome_iff_exists.mp hac
      rw [keyCmp_swap ho]
      rfl
    obtain ⟨o3, ho3⟩ := Option.isSome_iff_exists.mp hca
    exact keyLeB_true_intro ho3 (keyCmp_not_gt_trans ho1 hg1 ho2 hg2 ho3)

theorem keyLeB_null_asc {a b : Bool × Value} (h : keyLeB true a b = true)
    (ha : a.1 = true) : b.1 = true := by
  obtain ⟨o, ho, hg⟩ := keyLeB_true_elim h
  by_cases hb : b.1 = true
  · exact hb
  · exfalso
    have hne : ¬ (a.1 = b.1) := by
      rw [ha]
      intro hcontra
      exact hb hcontra.symm
    unfold keyCmp at ho
    rw [if_neg hne, if_pos ha] at ho
    exact hg (Option.some.inj ho).symm

theorem keyLeB_null_desc {a b : Bool × Value} (h : keyLeB false a b = true)
    (hb : b.1 = true) : a.1 = true := by
  have h' : keyLeB true b a = true := h
  exact keyLeB_null_asc h' hb

theorem pyInsert_perm (le : α → α → Bool) (a : α) (l : List α) :
    (pyInsert le a l).Perm (a :: l) := by
  induction l with
  | nil => exact List.Perm.refl _
  | cons b l ih =>
    unfold pyInsert
    by_cases h : le a b = true
    · rw [if_pos h]
    · rw [if_neg h]
      exact (ih.cons b).trans (List.Perm.swap a b l)

theorem pySort_perm (le : α → α → Bool) (l : List α) : (pySort le l).Perm l := by
  induction l with
  | nil => exact List.Perm.refl _
  | cons a l ih =>
    exact (pyInsert_perm le a (pySort le l)).trans (ih.cons a)

theorem pyInsert_pairwise (le : α → α → Bool) (a : α) :
    ∀ l : List α,
    (∀ b ∈ l, le a b = true ∨ le b a = true) →
    (∀ b ∈ l, ∀ c ∈ l, le a b = true → le b c = true → le a c = true) →
    l.Pairwise (fun x y => le x y = true) →
    (pyInsert le a l).Pairwise (fun x y => le x y = true)
  | [] => fun _ _ _ => by simp [pyInsert]
  | b :: l => fun htot htr hl => by
    rw [List.pairwise_cons] at hl
    unfold pyInsert
    by_cases h : le a b = true
    · rw [if_pos h]
      refine List.Pairwise.cons ?_ (List.Pairwise.cons hl.1 hl.2)
      intro x hx
      rcases List.mem_cons.mp hx with rfl | hx'
      · exact h
      · exact htr b (List.mem_cons_self b l) x (List.mem_cons_of_mem b hx') h (hl.1 x hx')
    · rw [if_neg h]
      refine List.Pairwise.cons ?_ ?_
      · intro x hx
        rw [(pyInsert_perm le a l).mem_iff] at hx
        rcases List.mem_cons.mp hx with hxa | hx'
        · subst hxa
          rcases htot b (List.mem_cons_self b l) with h1 | h1
          · exact absurd h1 h
          · exact h1
        · exact hl.1 x hx'
      · exact pyInsert_pairwise le a l (fun x hx => htot x (List.mem_cons_of_mem b hx))
          (fun x hx y hy => htr x (List.mem_cons_of_mem b hx) y (List.mem_cons_of_mem b hy))
          hl.2

theorem pySort_pairwise (le : α → α → Bool) :
    ∀ l : List α,
    (∀ x ∈ l, ∀ y ∈ l, le x y = true ∨ le y x = true) →
    (∀ x ∈ l, ∀ y ∈ l, ∀ z ∈ l, le x y = true → le y z = true → le x z = true) →
    (pySort le l).Pairwise (fun x y => le x y = true)
  | [] => fun _ _ => List.Pairwise.nil
  | a :: l => fun htot htr => by
    show (pyInsert le a (pySort le l)).Pairwise (fun x y => le x y = true)
    have hmem : ∀ x ∈ pySort le l, x ∈ l := fun x hx => (pySort_perm le l).mem_iff.mp hx
    refine pyInsert_pairwise le a (pySort le l) ?_ ?_ ?_
    · intro b hb
      exact htot a (List.mem_cons_self a l) b (List.mem_cons_of_mem a (hmem b hb))
    · intro b hb c hc
      exact htr a (List.mem_cons_self a l) b (List.mem_cons_of_mem a (hmem b hb))
        c (List.mem_cons_of_mem a (hmem c hc))
    · exact pySort_pairwise le l
        (fun x hx y hy => htot x (List.mem_cons_of_mem a hx) y (List.mem_cons_of_mem a hy))
        (fun x hx y hy z hz => htr x (List.mem_cons_of_mem a hx) y (List.mem_cons_of_mem a hy)
          z (List.mem_cons_of_mem a hz))

theorem filter_pyInsert_neg (le : α → α → Bool) (p : α → Bool) (a : α)
    (hpa : p a = false) :
    ∀ l : List α, (pyInsert le a l).filter p = l.filter p
  | [] => by simp [pyInsert, hpa]
  | b :: l => by
    unfold pyInsert
    by_cases h : le a b = true
    · rw [if_pos h, List.filter_cons, hpa, if_neg Bool.false_ne_true]
    · rw [if_neg h, List.filter_cons, List.filter_cons,
        filter_pyInsert_neg le p a hpa l]

theorem filter_pyInsert_pos (le : α → α → Bool) (p : α → Bool) (a : α)
    (hpa : p a = true) :
    ∀ l : List α, (∀ b ∈ l, p b = true → le a b = true) →
      (pyInsert le a l).filter p = a :: l.filter p
  | [] => fun _ => by simp [pyInsert, hpa]
  | b :: l => fun hbefore => by
    unfold pyInsert
    by_cases h : le a b = true
    · rw [if_pos h, List.filter_cons, hpa, if_pos rfl]
    · have hpb : p b = false := by
        cases hq : p b with
        | false => rfl
        | true => exact absurd (hbefore b (List.mem_cons_self b l) hq) h
      rw [if_neg h, List.filter_cons, hpb, if_neg Bool.false_ne_true,
        filter_pyInsert_pos le p a hpa l
          (fun x hx hpx => hbefore x (List.mem_cons_of_mem b hx) hpx),
        List.filter_cons, hpb, if_neg Bool.false_ne_true]

theorem filter_pySort (le : α → α → Bool) (p : α → Bool)
    (hcomp : ∀ x y, p x = true → p y = true → le x y = true) :
    ∀ l : List α, (pySort le l).filter p = l.filter p
  | [] => rfl
  | a :: l => by
    show (pyInsert le a (pySort le l)).filter p = (a :: l).filter p
    by_cases hpa : p a = true
    · rw [filter_pyInsert_pos le p a hpa (pySort le l) (fun b _ hb => hcomp a b hpa hb),
        filter_pySort le p hcomp l, List.filter_cons, hpa, if_pos rfl]
    · have hpa' : p a = false := by
        cases hq : p a with
        | false => rfl
        | true => exact absurd hq hpa
      rw [filter_pyInsert_neg le p a hpa' (pySort le l),
        filter_pySort le p hcomp l, List.filter_cons, hpa', if_neg Bool.false_ne_true]

theorem sortComparable_elim {df : DataFrame} {idx : ℕ} (h : sortComparable df idx = true) :
    ∀ x ∈ df.data, ∀ y ∈ df.data,
      (keyCmp (rowKey idx x) (rowKey idx y)).isSome = true := by
  intro x hx y hy
  unfold sortComparable at h
  dsimp only at h
  have h1 := List.all_eq_true.mp h _ (List.mem_map_of_mem (rowKey idx) hx)
  exact List.all_eq_true.mp h1 _ (List.mem_map_of_mem (rowKey idx) hy)

/-- Claim C2 (amended): for an absent column `sort_values` fails with the
KeyError "Column ... not found"; on success the result keeps the columns,
is a permutation of the input rows, is sorted under the direction-aware
key order, and is stable (for every key, the rows with that key appear in
their original relative order).  But the Null placement depends on the
direction: `reverse=not ascending` flips the whole key `(is None, value)`,
so Null rows come last only when ascending and come FIRST when descending —
not "after all non-null values regardless of direction" (see the
counterexample). -/
theorem C2_sort (df : DataFrame) (c : String) (asc : Bool) :
    (df.columns.contains c = false →
      DataFrame.sortValues df c asc
        = .error (.keyError ("Column '" ++ c ++ "' not found"))) ∧
    (∀ out, DataFrame.sortValues df c asc = .ok out →
      out.columns = df.columns ∧
      out.data.Perm df.data ∧
      out.data.Pairwise (fun r1 r2 =>
        keyLeB asc (rowKey (colIndex df.columns c) r1)
          (rowKey (colIndex df.columns c) r2) = true) ∧
      (∀ k : Bool × Value,
        out.data.filter (fun r =>
            keyCmp (rowKey (colIndex df.columns c) r) k = some Ordering.eq)
          = df.data.filter (fun r =>
            keyCmp (rowKey (colIndex df.columns c) r) k = some Ordering.eq)) ∧
      (asc = true → out.data.Pairwise (fun r1 r2 =>
        (rowKey (colIndex df.columns c) r1).1 = true →
        (rowKey (colIndex df.columns c) r2).1 = true)) ∧
      (asc = false → out.data.Pairwise (fun r1 r2 =>
        (rowKey (colIndex df.columns c) r2).1 = true →
        (rowKey (colIndex df.columns c) r1).1 = true))) := by
  constructor
  · intro hcc
    unfold DataFrame.sortValues
    rw [if_pos hcc]
  · intro out h
    unfold DataFrame.sortValues at h
    dsimp only at h
    by_cases hcc : df.columns.contains c = false
    · rw [if_pos hcc] at h
      exact Except.noConfusion h
    · rw [if_neg hcc] at h
      by_cases hsc : sortComparable df (colIndex df.columns c) = true
      · rw [if_pos hsc] at h
        obtain ⟨hdata, hcols, _⟩ := mkDF_ok h
        have hcmp := sortComparable_elim hsc
        have hperm : out.data.Perm df.data := by
          rw [hdata]
          exact pySort_perm _ df.data
        have hpw : out.data.Pairwise (fun r1 r2 =>
            keyLeB asc (rowKey (colIndex df.columns c) r1)
              (rowKey (colIndex df.columns c) r2) = true) := by
          rw [hdata]
          exact pySort_pairwise _ df.data
            (fun x hx y hy => keyLeB_total asc (hcmp x hx y hy))
            (fun x hx y _ z hz h1 h2 => keyLeB_trans asc (hcmp x hx z hz) h1 h2)
        have hst : ∀ k : Bool × Value,
            out.data.filter (fun r =>
              keyCmp (rowKey (colIndex df.columns c) r) k = some Ordering.eq)
            = df.data.filter (fun r =>
              keyCmp (rowKey (colIndex df.columns c) r) k = some Ordering.eq) := by
          intro k
          rw [hdata]
          refine filter_pySort _ _ ?_ df.data
          intro x y hx hy
          have hx' : keyCmp (rowKey (colIndex df.columns c) x) k = some Ordering.eq := by
            simpa using hx
          have hy' : keyCmp (rowKey (colIndex df.columns c) y) k = some Ordering.eq := by
            simpa using hy
          exact keyLeB_of_eq asc (keyCmp_eq_trans hx' (keyCmp_eq_symm hy'))
        refine ⟨hcols, hperm, hpw, hst, ?_, ?_⟩
        · intro hasc
          subst hasc
          exact hpw.imp (fun hr h1 => keyLeB_null_asc hr h1)
        · intro hasc
          subst hasc
          exact hpw.imp (fun hr h1 => keyLeB_null_desc hr h1)
      · rw [if_neg hsc] at h
        exact Except.noConfusion h

/-- Claim C2 counterexample: with `ascending=False` the Null row is placed
BEFORE the non-null row (the `reverse` flag also reverses the
`row[col_idx] is None` component of the key), contradicting "Null values
are placed after all non-null values regardless of direction". -/
theorem C2_cex :
    DataFrame.sortValues ⟨[[Value.null], [Value.int 1]], ["x"]⟩ "x" false
      = .ok ⟨[[Value.null], [Value.int 1]], ["x"]⟩ ∧
    DataFrame.sortValues ⟨[[Value.null], [Value.int 1]], ["x"]⟩ "x" false
      ≠ .ok ⟨[[Value.int 1], [Value.null]], ["x"]⟩ := by
  decide

theorem C2_sort_w :
    ([[Value.int 1], [Value.int 3], [Value.null]] : List Row).Perm
        [[Value.int 3], [Value.null], [Value.int 1]] ∧
    ([[Value.int 1], [Value.int 3], [Value.null]] : List Row).Pairwise
        (fun r1 r2 => (rowKey 0 r1).1 = true → (rowKey 0 r2).1 = true) := by
  have h := (C2_sort ⟨[[Value.int 3], [Value.null], [Value.int 1]], ["x"]⟩ "x" true).2
    ⟨[[Value.int 1], [Value.int 3], [Value.null]], ["x"]⟩ (by decide)
  exact ⟨h.2.1, h.2.2.2.2.1 rfl⟩
